import Mathlib

/-!
Shallow embedding of the SharkPad note-taking application (Python/PySide6)
for verification of its natural-language specification.

Modules embedded:
* `Drawing`   — `drawing_operations.py` (`ImageObject`, `DrawingCanvas` z-order
  operations, select-mode click, `DrawingPad.add_recent_color`)
* `FileOps`   — `file_operations.py` (`save_file`) and the POSIX path helpers
  (`os.path.dirname` / `basename` / `splitext` / `join`) it calls
* `Spell`     — `ai_operations.py` (`SpellCheckWorker.run`,
  `highlight_misspelled_words`, `apply_highlights`)
* `Voice`     — `voice_operations.py` (`toggle_voice`, `stop_voice`,
  `is_voice_active`)
* `Summarize` — `summarization_operations.py` (`FreeTeacherSummarizer.summarize`)

Python strings are modelled as `List Char`, Python ints as `Int` (or `Nat`
for indices), `None` as `Option`.
-/

namespace Drawing

/-- A 2-D point, modelling Qt's `QPoint` (integer coordinates). -/
structure QPoint where
  x : Int
  y : Int
deriving DecidableEq, Repr

/-- Model of `ImageObject` (`drawing_operations.py` lines 24–46): an image
placed on the canvas at `(x, y)` with display size `width × height` and a
selection flag.  The pixmap itself does not influence any claim, so it is
not carried. -/
structure ImageObject where
  x : Int
  y : Int
  width : Int
  height : Int
  selected : Bool
deriving DecidableEq, Repr

/-- `ImageObject.contains_point` (line 37–38): `QRect(x, y, w, h).contains(p)`.
For rectangles with positive width and height (pixmap sizes are positive and
`resize` clamps to ≥ 20) Qt's `QRect::contains` is
`x ≤ p.x ≤ x + w - 1 ∧ y ≤ p.y ≤ y + h - 1` (`right = x + width - 1`). -/
def ImageObject.contains_point (img : ImageObject) (p : QPoint) : Bool :=
  decide (img.x ≤ p.x) && decide (p.x ≤ img.x + img.width - 1) &&
  decide (img.y ≤ p.y) && decide (p.y ≤ img.y + img.height - 1)

/-- `ImageObject.move` (lines 40–42). -/
def ImageObject.move (img : ImageObject) (dx dy : Int) : ImageObject :=
  { img with x := img.x + dx, y := img.y + dy }

/-- `ImageObject.resize` (lines 44–46):
`self.width = max(20, new_width); self.height = max(20, new_height)`. -/
def ImageObject.resize (img : ImageObject) (new_width new_height : Int) :
    ImageObject :=
  { img with width := max 20 new_width, height := max 20 new_height }

/-- The part of `DrawingCanvas` state that the z-order operations read and
write: the z-ordered list `self.images` (index 0 = bottom layer, last =
top layer) and `self.selected_image`.  Python compares `ImageObject`s by
identity; since every object in `self.images` is a distinct freshly
constructed instance, identity is modelled as a `Nodup` list over an
arbitrary type with decidable equality. -/
structure CanvasState (α : Type) where
  images : List α
  selected_image : Option α
deriving Repr

/-- `DrawingCanvas.bring_to_front` (lines 253–260): if an image is selected
and present, `remove` it (first occurrence) and `append` it, returning
`True`; otherwise return `False`. -/
def bring_to_front {α : Type} [DecidableEq α] (c : CanvasState α) :
    Bool × CanvasState α :=
  match c.selected_image with
  | none => (false, c)
  | some s =>
    if s ∈ c.images then
      (true, { c with images := c.images.erase s ++ [s] })
    else (false, c)

/-- `DrawingCanvas.send_to_back` (lines 262–269): `remove` then
`insert(0, ·)`. -/
def send_to_back {α : Type} [DecidableEq α] (c : CanvasState α) :
    Bool × CanvasState α :=
  match c.selected_image with
  | none => (false, c)
  | some s =>
    if s ∈ c.images then
      (true, { c with images := s :: c.images.erase s })
    else (false, c)

/-- In-place swap of the elements at positions `i` and `i + 1`, modelling
`l[i], l[i+1] = l[i+1], l[i]`; when `i + 1` is out of range the list is
returned unchanged (the callers guard `i < len - 1`). -/
def swapAdj {α : Type} : List α → Nat → List α
  | a :: b :: t, 0 => b :: a :: t
  | a :: t, n + 1 => a :: swapAdj t n
  | l, _ => l

/-- `DrawingCanvas.bring_forward` (lines 271–279): look up
`index = images.index(selected)` and swap positions `index` and
`index + 1` when the image is not already on top. -/
def bring_forward {α : Type} [DecidableEq α] (c : CanvasState α) :
    Bool × CanvasState α :=
  match c.selected_image with
  | none => (false, c)
  | some s =>
    if s ∈ c.images then
      let index := c.images.indexOf s
      if index < c.images.length - 1 then
        (true, { c with images := swapAdj c.images index })
      else (false, c)
    else (false, c)

/-- `DrawingCanvas.send_backward` (lines 281–289): swap positions
`index` and `index - 1` when the image is not already at the bottom. -/
def send_backward {α : Type} [DecidableEq α] (c : CanvasState α) :
    Bool × CanvasState α :=
  match c.selected_image with
  | none => (false, c)
  | some s =>
    if s ∈ c.images then
      let index := c.images.indexOf s
      if 0 < index then
        (true, { c with images := swapAdj c.images (index - 1) })
      else (false, c)
    else (false, c)

/-- The reversed linear scan of `mousePressEvent` (lines 86–90):
`for img in reversed(self.images): if img.contains_point(pos): break`.
Returns the index of the hit image — the greatest index whose rectangle
contains `p` — scanning later (topmost) elements first. -/
def findTopmost (p : QPoint) : List ImageObject → Option Nat
  | [] => none
  | img :: rest =>
    match findTopmost p rest with
    | some i => some (i + 1)
    | none => if img.contains_point p then some 0 else none

/-- The select-mode branch of `DrawingCanvas.mousePressEvent`
(lines 84–116): find the topmost image containing `pos`, set
`img.selected = False` on every image, then set `clicked_image.selected =
True` and `self.selected_image = clicked_image` (modelled by its index),
or `self.selected_image = None` when nothing was hit. -/
def selectModeClick (imgs : List ImageObject) (p : QPoint) :
    List ImageObject × Option Nat :=
  let clicked := findTopmost p imgs
  let deselected := imgs.map (fun img => { img with selected := false })
  match clicked with
  | some i =>
    match imgs.get? i with
    | some img => (deselected.set i { img with selected := true }, some i)
    | none => (deselected, none)
  | none => (deselected, none)

/-- `DrawingPad.max_recent_colors` (line 345). -/
def max_recent_colors : Nat := 5

/-- `DrawingPad.add_recent_color` (lines 485–497), abstracted over the
colour type `α` with its `QColor.name()` observation `name`:
remove every colour with the same name, insert the new colour at the
front, and `pop()` the last element when the list exceeds
`max_recent_colors`. -/
def add_recent_color {α : Type} (name : α → List Char)
    (recent_colors : List α) (color : α) : List α :=
  let filtered := recent_colors.filter (fun c => name c ≠ name color)
  let inserted := color :: filtered
  if max_recent_colors < inserted.length then inserted.dropLast else inserted

end Drawing

namespace FileOps

/-- Greatest index of `c` in the list, scanning the tail first — the
recursive form of Python's `str.rfind` hit index (`none` when absent). -/
def rfindAux (c : Char) : List Char → Option Nat
  | [] => none
  | a :: t =>
    match rfindAux c t with
    | some i => some (i + 1)
    | none => if a = c then some 0 else none

/-- Python `p.rfind(c)`: greatest index of `c`, or `-1` when absent. -/
def rfind (p : List Char) (c : Char) : Int :=
  match rfindAux c p with
  | none => -1
  | some i => (i : Int)

/-- `str.rstrip('/')`: drop trailing `'/'` characters. -/
def rstripSlash (l : List Char) : List Char :=
  (l.reverse.dropWhile (fun c => c = '/')).reverse

/-- `posixpath.dirname(p)`:
`i = p.rfind('/') + 1; head = p[:i];`
`if head and head != '/'*len(head): head = head.rstrip('/'); return head`. -/
def dirname (p : List Char) : List Char :=
  let i := (rfind p '/' + 1).toNat
  let head := p.take i
  if head ≠ [] ∧ head.any (fun c => c ≠ '/') then rstripSlash head else head

/-- `posixpath.basename(p)`: `i = p.rfind('/') + 1; return p[i:]`. -/
def basename (p : List Char) : List Char :=
  p.drop (rfind p '/' + 1).toNat

/-- `posixpath.splitext(p)` (via `genericpath._splitext` with `sep='/'`,
`extsep='.'`): split at the last dot when it lies after the last slash and
the filename is not made of leading dots only. -/
def splitext (p : List Char) : List Char × List Char :=
  let sepIndex := rfind p '/'
  let dotIndex := rfind p '.'
  if sepIndex < dotIndex then
    let filenameIndex := (sepIndex + 1).toNat
    if ((p.take dotIndex.toNat).drop filenameIndex).any (fun c => c ≠ '.') then
      (p.take dotIndex.toNat, p.drop dotIndex.toNat)
    else (p, [])
  else (p, [])

/-- `posixpath.join(a, b)` for a single component `b`:
`if b.startswith('/'): b  elif not a or a.endswith('/'): a + b
else: a + '/' + b`. -/
def join (a b : List Char) : List Char :=
  if b.head? = some '/' then b
  else if a = [] ∨ a.getLast? = some '/' then a ++ b
  else a ++ '/' :: b

/-- The filename of the drawing PNG saved next to the text file
(`file_operations.py` lines 87–89):
`base_name = os.path.splitext(os.path.basename(current_file))[0]`,
joined as `f"{base_name}_drawing.png"`. -/
def drawingFileName (current_file : List Char) : List Char :=
  (splitext (basename current_file)).1 ++ "_drawing.png".toList

/-- The externally visible file-system writes that one `save_file` call
performs. -/
structure SaveEffects where
  text_path : List Char
  text_content : List Char
  png_path : Option (List Char)
deriving Repr

/-- `save_file` (`file_operations.py` lines 54–99) for a known target file
(`current_file` is not `None`, so the dialog branch is skipped):
`has_drawing = drawing_pad and drawing_pad.has_drawing()` is sampled first,
the editor's plain text is written to `current_file`, and when
`has_drawing` the composited canvas is written as PNG to
`os.path.join(os.path.dirname(current_file), f"{base_name}_drawing.png")`. -/
def save_file (editor_text : List Char) (current_file : List Char)
    (has_drawing : Bool) : SaveEffects :=
  { text_path := current_file
    text_content := editor_text
    png_path :=
      if has_drawing then
        some (join (dirname current_file) (drawingFileName current_file))
      else none }

end FileOps

namespace Spell

/-- `[a-zA-Z]` — the character class of the worker's word regex. -/
def isLetterChar (c : Char) : Bool :=
  (decide ('a' ≤ c) && decide (c ≤ 'z')) || (decide ('A' ≤ c) && decide (c ≤ 'Z'))

/-- Left-to-right scan of `re.finditer(r"\b[a-zA-Z]+\b", text)`
(`SpellCheckWorker.run`, `ai_operations.py` lines 28–29).  `\b` is the
boundary of the engine's Unicode word-character class `\w` (alphanumeric
or underscore, per the Unicode database); like the third-party
dictionary, that class is abstracted as the parameter `isW` — the
theorems hold for every `isW` containing the ASCII letters, so in
particular for the engine's actual `\w`.  `prevW` records whether the
character before position `i` is a word character (`false` at the start
of the string).  A match is a maximal run of letters whose left
neighbour and right neighbour, when they exist, are not word characters;
runs failing the right boundary are skipped whole, exactly as the
backtracking engine does.  Produces `(m.start(), m.end(), m.group())`
triples in order. -/
def wordsAux (isW : Char → Bool) (prevW : Bool) (i : Nat) :
    List Char → List (Nat × Nat × List Char)
  | [] => []
  | c :: rest =>
    if isLetterChar c && !prevW then
      let run := c :: rest.takeWhile isLetterChar
      let rest' := rest.dropWhile isLetterChar
      let rightOk := rest'.head?.all (fun d => !isW d)
      let tail := wordsAux isW true (i + run.length) rest'
      if rightOk then (i, i + run.length, run) :: tail else tail
    else
      wordsAux isW (isW c) (i + 1) rest
termination_by l => l.length
decreasing_by
  · have key : ∀ l : List Char, (l.dropWhile isLetterChar).length ≤ l.length := by
      intro l
      induction l with
      | nil => simp [List.dropWhile]
      | cons a t ih =>
        by_cases h : isLetterChar a
        · simp only [List.dropWhile, h]
          exact Nat.le_succ_of_le ih
        · simp [List.dropWhile, h]
    simp only [List.length_cons]
    exact Nat.lt_succ_of_le (key _)
  · simp

/-- All regex matches of `\b[a-zA-Z]+\b` over `text`, as
`(start, end, group)` triples, for the word-character class `isW`. -/
def findWords (isW : Char → Bool) (text : List Char) :
    List (Nat × Nat × List Char) :=
  wordsAux isW false 0 text

/-- `str.lower()` on ASCII text. -/
def strLower (w : List Char) : List Char := w.map Char.toLower

/-- The `word_map` dict of `SpellCheckWorker.run` (lines 32–39): keys in
insertion order, and per key the list of `(start, end, original)`
occurrences in append order. -/
structure WordMap where
  keys : List (List Char)
  entries : List Char → List (Nat × Nat × List Char)

/-- `if lower not in word_map: word_map[lower] = []` followed by
`word_map[lower].append((m.start(), m.end(), original))`. -/
def WordMap.add (m : WordMap) (k : List Char) (occ : Nat × Nat × List Char) :
    WordMap :=
  { keys := if k ∈ m.keys then m.keys else m.keys ++ [k]
    entries := fun k' => if k' = k then m.entries k ++ [occ] else m.entries k' }

def emptyWordMap : WordMap := ⟨[], fun _ => []⟩

/-- The `word_map` building loop of `SpellCheckWorker.run` (lines 33–39):
each match whose lowercase form is not in `ignored_words` is appended
under its lowercase key. -/
def buildWordMap (ignored : List (List Char))
    (matchList : List (Nat × Nat × List Char)) : WordMap :=
  matchList.foldl
    (fun m occ =>
      let lower := strLower occ.2.2
      if lower ∈ ignored then m else m.add lower occ)
    emptyWordMap

/-- `SpellCheckWorker.run` (lines 26–51), with the third-party dictionary
abstracted as the predicate `unknown` (`spell.unknown` returns the subset
of its argument for which `unknown` holds), the regex engine's Unicode
word-character class `\w` abstracted as `isW`, and `ignored_words` as the
list `ignored`.  `misspelled` is a Python set, whose iteration order is
unspecified; the model fixes key-insertion order, and the theorem about
this function is a membership statement, insensitive to that order. -/
def spellCheckRun (ignored : List (List Char)) (unknown : List Char → Bool)
    (isW : Char → Bool) (text : List Char) :
    List (Nat × Nat × List Char) :=
  let matchList := findWords isW text
  let word_map := buildWordMap ignored matchList
  let misspelled := word_map.keys.filter unknown
  misspelled.flatMap word_map.entries

/-- The declarative reading of a `\b[a-zA-Z]+\b` match under the
word-character class `isW`: `w` is a non-empty all-letter slice of `t` at
offsets `[s, e)`, and the characters adjacent to it (when they exist) are
not word characters. -/
def IsRegexMatch (isW : Char → Bool) (t : List Char) (s e : Nat)
    (w : List Char) : Prop :=
  w ≠ [] ∧ e = s + w.length ∧ e ≤ t.length ∧
  w = (t.drop s).take w.length ∧ (∀ c ∈ w, isLetterChar c = true) ∧
  (s = 0 ∨ ∃ c, t.get? (s - 1) = some c ∧ isW c = false) ∧
  (e = t.length ∨ ∃ c, t.get? e = some c ∧ isW c = false)

/-- Character formatting as far as `apply_highlights` manipulates it:
`QTextCharFormat` with wave-underline style and red underline colour. -/
structure CharFmt where
  waveUnderline : Bool
  redUnderline : Bool
deriving DecidableEq, Repr

/-- The default `QTextCharFormat()`. -/
def defaultFmt : CharFmt := ⟨false, false⟩

/-- The `error_fmt` of `apply_highlights` (lines 96–98). -/
def errorFmt : CharFmt := ⟨true, true⟩

/-- A `QTextCursor`: `position()` and `anchor()`; `hasSelection()` is
`position ≠ anchor`. -/
structure Cursor where
  position : Nat
  anchor : Nat
deriving DecidableEq, Repr

def Cursor.hasSelection (c : Cursor) : Bool := decide (c.position ≠ c.anchor)

/-- The text document together with per-character formatting and the
user's text cursor. -/
structure Editor where
  text : List Char
  formats : List CharFmt
  cursor : Cursor
deriving Repr

/-- `format_cursor.setPosition(start); setPosition(end, KeepAnchor);
setCharFormat(fmt)`: set the format of the characters at indices
`[s, e)` (positions are clamped to the document, which `mapIdx` renders
by only touching existing indices). -/
def setFormatRange (fmts : List CharFmt) (s e : Nat) (fmt : CharFmt) :
    List CharFmt :=
  fmts.mapIdx (fun i old => if s ≤ i ∧ i < e then fmt else old)

/-- `apply_highlights(editor, errors, text_hash)` (`ai_operations.py`
lines 72–112) with the global `_last_text_hash` passed explicitly (the
`not editor` disjunct of the guard is always false for a live widget):
when the hash is stale, return with no change at all; otherwise reset the
whole document to the default format, wave-underline every error range,
and restore the saved cursor (`setPosition(old_anchor);
setPosition(old_pos, KeepAnchor)` when there was a selection, else
`setPosition(old_pos)`; `setPosition` clamps to the document length). -/
def apply_highlights (ed : Editor) (errors : List (Nat × Nat × List Char))
    (text_hash last_text_hash : List Char) : Editor :=
  if text_hash ≠ last_text_hash then ed
  else
    let f0 := ed.formats.map (fun _ => defaultFmt)
    let f1 := errors.foldl (fun f occ => setFormatRange f occ.1 occ.2.1 errorFmt) f0
    let len := ed.text.length
    let c := ed.cursor
    let restored : Cursor :=
      if c.hasSelection then
        { position := min c.position len, anchor := min c.anchor len }
      else
        { position := min c.position len, anchor := min c.position len }
    { ed with formats := f1, cursor := restored }

/-- `highlight_misspelled_words` (lines 56–70), data flow only: it records
`_last_text_hash = str(hash(current_text))` and starts a worker carrying
`current_text`; the worker will emit `str(hash(self.text))` alongside its
results.  Returns `(new _last_text_hash, worker text)`. -/
def highlight_misspelled_words (hashFn : List Char → List Char)
    (current_text : List Char) : List Char × List Char :=
  (hashFn current_text, current_text)

end Spell

namespace Voice

/-- A `VoiceWorker` (`voice_operations.py` lines 40–149) as the lifecycle
model sees it: its `energy_threshold` and whether its thread is running
(`isRunning()`): true from `start()` until `stop()` / termination or
until its `run()` returns on its own. -/
structure VoiceWorker where
  running : Bool
  energy_threshold : Nat
deriving DecidableEq, Repr

/-- `VoiceWorker(); set_sensitivity(sensitivity); start()` as performed by
`toggle_voice` (lines 169–175). -/
def VoiceWorker.fresh (sensitivity : Nat) : VoiceWorker :=
  { running := true, energy_threshold := sensitivity }

/-- The workers currently retained by the module.  The source keeps a
single global `_voice_worker_ref : Optional[VoiceWorker]`; the model uses
a list (head = the referenced worker) so that "at most one worker exists"
is a provable invariant rather than a typing assumption.  A worker drops
out of the list exactly when the code discards it (sets the global to
`None`, or overwrites it with a new worker). -/
def VoiceState := List VoiceWorker

/-- `toggle_voice` (lines 156–176): when the referenced worker is running,
stop and discard it and return `False`; otherwise create, configure and
start exactly one fresh worker (overwriting — hence discarding — any
stale non-running reference) and return `True`. -/
def toggle_voice (workers : List VoiceWorker) (sensitivity : Nat) :
    Bool × List VoiceWorker :=
  match workers with
  | w :: rest =>
    if w.running then (false, rest)
    else (true, VoiceWorker.fresh sensitivity :: rest)
  | [] => (true, [VoiceWorker.fresh sensitivity])

/-- `stop_voice` (lines 187–196): stop and discard the referenced worker
when it is running; otherwise do nothing. -/
def stop_voice (workers : List VoiceWorker) : List VoiceWorker :=
  match workers with
  | w :: rest => if w.running then rest else w :: rest
  | [] => []

/-- `is_voice_active` (lines 183–185):
`_voice_worker_ref is not None and _voice_worker_ref.isRunning()`. -/
def is_voice_active (workers : List VoiceWorker) : Bool :=
  match workers with
  | w :: _ => w.running
  | [] => false

/-- The events that drive the worker lifecycle: the two public calls, and
the referenced worker's `run()` returning on its own (after which
`isRunning()` is false while the reference persists). -/
inductive VoiceEvent where
  | toggle (sensitivity : Nat)
  | stop
  | workerExit
deriving DecidableEq, Repr

def voiceStep (workers : List VoiceWorker) : VoiceEvent → List VoiceWorker
  | .toggle s => (toggle_voice workers s).2
  | .stop => stop_voice workers
  | .workerExit =>
    match workers with
    | w :: rest => { w with running := false } :: rest
    | [] => []

/-- The worker state reached from start-up (no worker) by a sequence of
calls and thread exits. -/
def voiceRun (events : List VoiceEvent) : List VoiceWorker :=
  events.foldl voiceStep []

end Voice

namespace Summarize

/-- ASCII `str.strip()` whitespace (Python also strips other Unicode
whitespace; the model covers ASCII text). -/
def isSpaceChar (c : Char) : Bool :=
  c = ' ' || c = '\t' || c = '\n' || c = '\r' || c = '\x0b' || c = '\x0c'

/-- Python `s.strip()`. -/
def pyStrip (s : List Char) : List Char :=
  ((s.dropWhile isSpaceChar).reverse.dropWhile isSpaceChar).reverse

/-- Python `needle in hay` on strings: substring containment. -/
def containsSub (hay needle : List Char) : Bool :=
  hay.tails.any (fun t => needle.isPrefixOf t)

def apiKeyPrompt : List Char := "Please enter your Groq API Key in Settings.".toList

def tooShortMsg : List Char := "The text box is too short for me to explain!".toList

def invalidKeyMsg : List Char :=
  "API Error: Invalid Groq Key. Make sure it starts with 'gsk_'.".toList

def rateLimitMsg : List Char :=
  "Free tier limit reached. Please wait a minute and try again.".toList

/-- `FreeTeacherSummarizer.summarize` (`summarization_operations.py`
lines 24–60).  `client_configured` models `self.client` being set;
the remote call `self.client.chat.completions.create(...).choices[0]
.message.content` — everything inside the `try` — is abstracted as
`api_result`: `.ok content` when it returns, `.error (str(e))` when it
raises.  The `except` clause lowercases `str(e)` and maps
authentication/401 errors, then rate-limit/429 errors, then everything
else; so the function is total — it never raises. -/
def summarize (client_configured : Bool) (text : List Char)
    (api_result : Except (List Char) (List Char)) : List Char :=
  if !client_configured then apiKeyPrompt
  else if text = [] ∨ (pyStrip text).length < 10 then tooShortMsg
  else
    match api_result with
    | .ok content => pyStrip content
    | .error e =>
      let msg := e.map Char.toLower
      if containsSub msg "authentication".toList ||
         containsSub msg "invalid api key".toList ||
         containsSub msg "401".toList then invalidKeyMsg
      else if containsSub msg "rate limit".toList ||
              containsSub msg "429".toList then rateLimitMsg
      else "API Error: ".toList ++ e

end Summarize

/-! ## Theorems -/

/-- **C9.** For every `ImageObject` and every requested `new_width` and
`new_height`, `resize` sets `width` to `max(20, new_width)` and `height`
to `max(20, new_height)` — so interactive resizing can never shrink an
image below 20 × 20 pixels — and it leaves `x` and `y` unchanged. -/
theorem resize_clamps_min_and_keeps_position (img : Drawing.ImageObject)
    (nw nh : Int) :
    (img.resize nw nh).width = max 20 nw ∧
    (img.resize nw nh).height = max 20 nh ∧
    20 ≤ (img.resize nw nh).width ∧
    20 ≤ (img.resize nw nh).height ∧
    (img.resize nw nh).x = img.x ∧
    (img.resize nw nh).y = img.y :=
  ⟨rfl, rfl, le_max_left _ _, le_max_left _ _, rfl, rfl⟩

/-- **C5.** `apply_highlights` never modifies the editor when the text
hash delivered with the background results differs from the hash of the
most recent text recorded by `highlight_misspelled_words` (the first
component of `highlight_misspelled_words hashFn latest_text`): stale
results are discarded with no change of any kind to the editor. -/
theorem stale_spellcheck_results_discarded (ed : Spell.Editor)
    (errors : List (Nat × Nat × List Char))
    (hashFn : List Char → List Char) (worker_text latest_text : List Char)
    (h : hashFn worker_text ≠
      (Spell.highlight_misspelled_words hashFn latest_text).1) :
    Spell.apply_highlights ed errors (hashFn worker_text)
      (Spell.highlight_misspelled_words hashFn latest_text).1 = ed := by
  unfold Spell.apply_highlights
  rw [if_pos h]

theorem stale_spellcheck_results_discarded_witness :
    (fun t : List Char => t) "a".toList ≠
      (Spell.highlight_misspelled_words (fun t => t) "b".toList).1 ∧
    Spell.apply_highlights ⟨"b".toList, [Spell.defaultFmt], ⟨0, 0⟩⟩ []
      ((fun t : List Char => t) "a".toList)
      (Spell.highlight_misspelled_words (fun t => t) "b".toList).1 =
      ⟨"b".toList, [Spell.defaultFmt], ⟨0, 0⟩⟩ :=
  ⟨by decide,
    stale_spellcheck_results_discarded ⟨"b".toList, [Spell.defaultFmt], ⟨0, 0⟩⟩
      [] (fun t => t) "a".toList "b".toList (by decide)⟩

/-- **C6.** Whenever `apply_highlights` does reformat the document (the
delivered hash matches the recorded one), the user's cursor is preserved —
position, anchor, and the presence of a selection — and the document's
plain text is unchanged. -/
theorem apply_highlights_preserves_cursor_and_text (ed : Spell.Editor)
    (errors : List (Nat × Nat × List Char)) (h : List Char)
    (hpos : ed.cursor.position ≤ ed.text.length)
    (hanc : ed.cursor.anchor ≤ ed.text.length) :
    (Spell.apply_highlights ed errors h h).text = ed.text ∧
    (Spell.apply_highlights ed errors h h).cursor.position =
      ed.cursor.position ∧
    (Spell.apply_highlights ed errors h h).cursor.anchor =
      ed.cursor.anchor ∧
    (Spell.apply_highlights ed errors h h).cursor.hasSelection =
      ed.cursor.hasSelection := by
  obtain ⟨txt, fmts, cp, ca⟩ := ed
  have hp : cp ≤ txt.length := hpos
  have ha : ca ≤ txt.length := hanc
  by_cases hpa : cp = ca
  · subst hpa
    simp [Spell.apply_highlights, Spell.Cursor.hasSelection,
      Nat.min_eq_left hp]
  · simp [Spell.apply_highlights, Spell.Cursor.hasSelection, hpa,
      Nat.min_eq_left hp, Nat.min_eq_left ha]

theorem apply_highlights_preserves_cursor_and_text_witness :
    (⟨2, 1⟩ : Spell.Cursor).position ≤ "ab".toList.length ∧
    (Spell.apply_highlights ⟨"ab".toList, [Spell.defaultFmt, Spell.defaultFmt],
        ⟨2, 1⟩⟩ [(0, 2, "ab".toList)] "h1".toList "h1".toList).cursor.position = 2 :=
  ⟨by decide,
    (apply_highlights_preserves_cursor_and_text
      ⟨"ab".toList, [Spell.defaultFmt, Spell.defaultFmt], ⟨2, 1⟩⟩
      [(0, 2, "ab".toList)] "h1".toList (by decide) (by decide)).2.1⟩

theorem voiceStep_length_le (ws : List Voice.VoiceWorker)
    (e : Voice.VoiceEvent) (h : ws.length ≤ 1) :
    (Voice.voiceStep ws e).length ≤ 1 := by
  cases e with
  | toggle s =>
    cases ws with
    | nil => simp [Voice.voiceStep, Voice.toggle_voice]
    | cons w rest =>
      simp only [List.length_cons] at h
      have : rest.length = 0 := by omega
      by_cases hr : w.running <;>
        simp [Voice.voiceStep, Voice.toggle_voice, hr, this]
  | stop =>
    cases ws with
    | nil => simp [Voice.voiceStep, Voice.stop_voice]
    | cons w rest =>
      simp only [List.length_cons] at h
      have hr0 : rest.length = 0 := by omega
      by_cases hr : w.running <;>
        simp [Voice.voiceStep, Voice.stop_voice, hr, hr0]
  | workerExit =>
    cases ws with
    | nil => simp [Voice.voiceStep]
    | cons w rest =>
      simpa [Voice.voiceStep] using h

theorem foldl_voiceStep_length_le (events : List Voice.VoiceEvent) :
    ∀ ws : List Voice.VoiceWorker, ws.length ≤ 1 →
      (events.foldl Voice.voiceStep ws).length ≤ 1 := by
  induction events with
  | nil => intro ws h; simpa using h
  | cons e es ih =>
    intro ws h
    simpa using ih _ (voiceStep_length_le _ _ h)

/-- **C4.** For every sequence of `toggle_voice` / `stop_voice` calls and
spontaneous worker exits, at most one voice worker is retained at any
time; `toggle_voice` invoked while the worker is running stops and
discards it and returns `False` without starting a new one, while none is
running it creates and starts exactly one fresh worker and returns
`True`; and `is_voice_active` reports true exactly when a retained
running worker exists. -/
theorem voice_worker_lifecycle (events : List Voice.VoiceEvent)
    (sens : Nat) :
    (Voice.voiceRun events).length ≤ 1 ∧
    Voice.toggle_voice (Voice.voiceRun events) sens =
      (if Voice.is_voice_active (Voice.voiceRun events) then (false, [])
       else (true, [Voice.VoiceWorker.fresh sens])) ∧
    Voice.is_voice_active (Voice.voiceRun events) =
      (Voice.voiceRun events).any (fun w => w.running) := by
  have hlen : (Voice.voiceRun events).length ≤ 1 :=
    foldl_voiceStep_length_le events [] (by simp)
  refine ⟨hlen, ?_, ?_⟩
  · match hws : Voice.voiceRun events with
    | [] => simp [Voice.toggle_voice, Voice.is_voice_active]
    | [w] =>
      by_cases hr : w.running <;>
        simp [Voice.toggle_voice, Voice.is_voice_active, hr]
    | w1 :: w2 :: rest => rw [hws] at hlen; simp at hlen
  · match hws : Voice.voiceRun events with
    | [] => simp [Voice.is_voice_active]
    | [w] => simp [Voice.is_voice_active]
    | w1 :: w2 :: rest => rw [hws] at hlen; simp at hlen

/-- **C8.** `summarize` never raises (it is a total function of its
inputs): with no configured client it returns the API-key prompt; with a
stripped text shorter than 10 characters it returns the too-short
message; and every exception `e` raised by the remote call is mapped to
an error string — the invalid-key message when the lowercased `str(e)`
contains `authentication`/`invalid api key`/`401`, the rate-limit message
when it contains `rate limit`/`429`, and `"API Error: " + str(e)`
otherwise. -/
theorem summarize_never_raises_and_maps_errors (text text' e : List Char)
    (api api' : Except (List Char) (List Char))
    (hshort : (Summarize.pyStrip text').length < 10)
    (hlong : 10 ≤ (Summarize.pyStrip text).length) :
    Summarize.summarize false text api = Summarize.apiKeyPrompt ∧
    Summarize.summarize true text' api' = Summarize.tooShortMsg ∧
    Summarize.summarize true text (Except.error e) =
      (if Summarize.containsSub (e.map Char.toLower) "authentication".toList ||
          Summarize.containsSub (e.map Char.toLower) "invalid api key".toList ||
          Summarize.containsSub (e.map Char.toLower) "401".toList then
         Summarize.invalidKeyMsg
       else if Summarize.containsSub (e.map Char.toLower) "rate limit".toList ||
               Summarize.containsSub (e.map Char.toLower) "429".toList then
         Summarize.rateLimitMsg
       else "API Error: ".toList ++ e) := by
  refine ⟨rfl, ?_, ?_⟩
  · simp [Summarize.summarize, Or.inr hshort]
  · have hne : ¬ (text = [] ∨ (Summarize.pyStrip text).length < 10) := by
      rintro (hnil | hlt)
      · subst hnil
        simp [Summarize.pyStrip] at hlong
      · omega
    simp [Summarize.summarize, hne]

theorem summarize_never_raises_and_maps_errors_witness :
    (Summarize.pyStrip " short  ".toList).length < 10 ∧
    10 ≤ (Summarize.pyStrip "hello there friend".toList).length ∧
    Summarize.summarize true "hello there friend".toList
      (Except.error "Error code: 429 - rate limit".toList) =
      Summarize.rateLimitMsg :=
  ⟨by decide, by decide, by
    have h := (summarize_never_raises_and_maps_errors
      "hello there friend".toList " short  ".toList
      "Error code: 429 - rate limit".toList (Except.ok [])
      (Except.ok []) (by decide) (by decide)).2.2
    rw [h]
    decide⟩

theorem add_recent_color_shape {α : Type} (name : α → List Char)
    (recent : List α) (c : α) :
    ∃ l', Drawing.add_recent_color name recent c = c :: l' ∧
      l'.Sublist (recent.filter (fun x => name x ≠ name c)) := by
  unfold Drawing.add_recent_color
  by_cases hpop :
      Drawing.max_recent_colors <
        (c :: recent.filter (fun x => name x ≠ name c)).length
  · rw [if_pos hpop]
    have hne : recent.filter (fun x => name x ≠ name c) ≠ [] := by
      intro hnil
      rw [hnil] at hpop
      simp [Drawing.max_recent_colors] at hpop
    rw [List.dropLast_cons_of_ne_nil hne]
    exact ⟨_, rfl, List.dropLast_sublist _⟩
  · rw [if_neg hpop]
    exact ⟨_, rfl, List.Sublist.refl _⟩

theorem notMem_map_filter_ne {α : Type} (name : α → List Char)
    (recent : List α) (c : α) :
    name c ∉ (recent.filter (fun x => name x ≠ name c)).map name := by
  intro hmem
  obtain ⟨x, hx, hnx⟩ := List.mem_map.1 hmem
  have := (List.mem_filter.1 hx).2
  rw [decide_eq_true_iff] at this
  exact this hnx

/-- **C10.** After every `add_recent_color` call on a valid recent-colors
list (names pairwise distinct, at most 5 entries), the list still has at
most 5 colours with pairwise-distinct names and the just-added colour at
the front; adding a colour whose name is already present moves it to the
front without duplication (the length is unchanged and the name occurs
exactly once), and adding a fresh colour to a full list evicts the last
(oldest) colour. -/
theorem add_recent_color_spec {α : Type} (name : α → List Char)
    (recent : List α) (c : α)
    (hnd : (recent.map name).Nodup) (hlen : recent.length ≤ 5) :
    (Drawing.add_recent_color name recent c).length ≤ 5 ∧
    ((Drawing.add_recent_color name recent c).map name).Nodup ∧
    (Drawing.add_recent_color name recent c).head? = some c ∧
    (name c ∈ recent.map name →
      Drawing.add_recent_color name recent c =
        c :: recent.filter (fun x => name x ≠ name c) ∧
      (Drawing.add_recent_color name recent c).length = recent.length ∧
      ((Drawing.add_recent_color name recent c).map name).count (name c)
        = 1) ∧
    (name c ∉ recent.map name → recent.length = 5 →
      Drawing.add_recent_color name recent c = c :: recent.dropLast) := by
  classical
  obtain ⟨l', hres, hsub⟩ := add_recent_color_shape name recent c
  have hfsub : (recent.filter (fun x => name x ≠ name c)).Sublist recent :=
    List.filter_sublist _
  -- the mem-case decomposition
  have hmemCase : name c ∈ recent.map name →
      Drawing.add_recent_color name recent c =
        c :: recent.filter (fun x => name x ≠ name c) ∧
      (recent.filter (fun x => name x ≠ name c)).length + 1 =
        recent.length := by
    intro hmem
    obtain ⟨x, hx, hnx⟩ := List.mem_map.1 hmem
    obtain ⟨l₁, l₂, hdec⟩ := List.append_of_mem hx
    have hxnot : name x ∉ (l₁ ++ l₂).map name := by
      rw [hdec] at hnd
      rw [List.map_append, List.map_cons] at hnd
      have h := List.nodup_middle.1 hnd
      rw [List.nodup_cons] at h
      simpa [List.map_append] using h.1
    have h₁ : l₁.filter (fun y => decide (name y ≠ name c)) = l₁ := by
      rw [List.filter_eq_self]
      intro y hy
      rw [decide_eq_true_iff]
      intro hyc
      apply hxnot
      have hyx : name x = name y := by rw [hnx, hyc]
      rw [hyx]
      exact List.mem_map_of_mem name (List.mem_append_left _ hy)
    have h₂ : l₂.filter (fun y => decide (name y ≠ name c)) = l₂ := by
      rw [List.filter_eq_self]
      intro y hy
      rw [decide_eq_true_iff]
      intro hyc
      apply hxnot
      have hyx : name x = name y := by rw [hnx, hyc]
      rw [hyx]
      exact List.mem_map_of_mem name (List.mem_append_right _ hy)
    have hfilter : recent.filter (fun x => name x ≠ name c) = l₁ ++ l₂ := by
      have hxc : (decide (name x ≠ name c)) = false := by simp [hnx]
      rw [hdec, List.filter_append, List.filter_cons, hxc]
      simp only [Bool.false_eq_true, if_false]
      rw [h₁, h₂]
    have hlength : (recent.filter (fun x => name x ≠ name c)).length + 1 =
        recent.length := by
      rw [hfilter, hdec]
      simp
      omega
    have hcond : ¬ (Drawing.max_recent_colors <
        (c :: recent.filter (fun x => name x ≠ name c)).length) := by
      simp only [List.length_cons, Drawing.max_recent_colors]
      omega
    refine ⟨?_, hlength⟩
    unfold Drawing.add_recent_color
    rw [if_neg hcond]
  refine ⟨?_, ?_, ?_, ?_, ?_⟩
  · -- length bound
    by_cases hmem : name c ∈ recent.map name
    · obtain ⟨heq, hl⟩ := hmemCase hmem
      rw [heq]
      simp only [List.length_cons]
      omega
    · have hfeq : recent.filter (fun x => name x ≠ name c) = recent := by
        rw [List.filter_eq_self]
        intro y hy
        rw [decide_eq_true_iff]
        intro hyc
        exact hmem (hyc ▸ List.mem_map_of_mem name hy)
      unfold Drawing.add_recent_color
      rw [hfeq]
      by_cases hpop : Drawing.max_recent_colors < (c :: recent).length
      · rw [if_pos hpop]
        simp only [List.length_dropLast, List.length_cons]
        simp [Drawing.max_recent_colors] at hpop ⊢
        omega
      · rw [if_neg hpop]
        simp only [List.length_cons]
        simp [Drawing.max_recent_colors] at hpop
        omega
  · -- nodup names
    rw [hres, List.map_cons, List.nodup_cons]
    constructor
    · intro hmem
      exact notMem_map_filter_ne name recent c
        ((List.Sublist.map name hsub).mem hmem)
    · exact ((List.Sublist.map name (hsub.trans hfsub)).nodup hnd)
  · rw [hres]; rfl
  · intro hmem
    obtain ⟨heq, hl⟩ := hmemCase hmem
    refine ⟨heq, ?_, ?_⟩
    · rw [heq]; simp only [List.length_cons]; omega
    · rw [heq, List.map_cons, List.count_cons_self]
      rw [List.count_eq_zero.2 (notMem_map_filter_ne name recent c)]
  · intro hmem hfull
    have hfeq : recent.filter (fun x => name x ≠ name c) = recent := by
      rw [List.filter_eq_self]
      intro y hy
      rw [decide_eq_true_iff]
      intro hyc
      exact hmem (hyc ▸ List.mem_map_of_mem name hy)
    have hne : recent ≠ [] := by
      intro hnil; rw [hnil] at hfull; simp at hfull
    unfold Drawing.add_recent_color
    rw [hfeq, if_pos ?_]
    · exact List.dropLast_cons_of_ne_nil hne
    · simp only [List.length_cons, Drawing.max_recent_colors]
      omega

theorem add_recent_color_spec_witness :
    ((["aa".toList, "bb".toList, "cc".toList].map
        (fun s : List Char => s)).Nodup) ∧
    Drawing.add_recent_color (fun s : List Char => s)
        ["aa".toList, "bb".toList, "cc".toList] "bb".toList =
      ["bb".toList, "aa".toList, "cc".toList] := by
  have h := (add_recent_color_spec (fun s : List Char => s)
    ["aa".toList, "bb".toList, "cc".toList] "bb".toList
    (by decide) (by decide)).2.2.2.1 (by decide)
  exact ⟨by decide, h.1.trans (by decide)⟩

theorem findTopmost_none_spec (p : Drawing.QPoint) :
    ∀ imgs : List Drawing.ImageObject, Drawing.findTopmost p imgs = none →
      ∀ img ∈ imgs, img.contains_point p = false := by
  intro imgs
  induction imgs with
  | nil => intro _ img h; simp at h
  | cons a rest ih =>
    intro h img hmem
    unfold Drawing.findTopmost at h
    cases hr : Drawing.findTopmost p rest with
    | some j => rw [hr] at h; simp at h
    | none =>
      rw [hr] at h
      by_cases hc : a.contains_point p
      · simp [hc] at h
      · rcases List.mem_cons.1 hmem with hhd | htl
        · subst hhd; simpa using hc
        · exact ih hr img htl

theorem findTopmost_some_spec (p : Drawing.QPoint) :
    ∀ (imgs : List Drawing.ImageObject) (i : Nat),
      Drawing.findTopmost p imgs = some i →
      (∃ img, imgs.get? i = some img ∧ img.contains_point p = true) ∧
      (∀ j img', i < j → imgs.get? j = some img' →
        img'.contains_point p = false) := by
  intro imgs
  induction imgs with
  | nil => intro i h; simp [Drawing.findTopmost] at h
  | cons a rest ih =>
    intro i h
    unfold Drawing.findTopmost at h
    cases hr : Drawing.findTopmost p rest with
    | some j =>
      rw [hr] at h
      simp only [Option.some.injEq] at h
      subst h
      obtain ⟨⟨img, hgj, hcj⟩, hbound⟩ := ih j hr
      refine ⟨⟨img, by simpa using hgj, hcj⟩, ?_⟩
      intro k img' hk hgk
      cases k with
      | zero => omega
      | succ k' =>
        simp only [List.get?_cons_succ] at hgk
        exact hbound k' img' (by omega) hgk
    | none =>
      rw [hr] at h
      by_cases hc : a.contains_point p
      · simp only [hc, if_true, Option.some.injEq] at h
        subst h
        refine ⟨⟨a, rfl, hc⟩, ?_⟩
        intro k img' hk hgk
        cases k with
        | zero => omega
        | succ k' =>
          simp only [List.get?_cons_succ] at hgk
          exact findTopmost_none_spec p rest hr img' (List.get?_mem hgk)
      · simp [hc] at h

/-- **C3.** In select mode, for every left-click at `p`: the image that
becomes selected is the one at the greatest index among those whose
rectangle contains `p` (i.e. the topmost in z-order), every other image
becomes deselected, and when no image's rectangle contains `p` no image
is selected afterwards. -/
theorem select_click_selects_topmost (imgs : List Drawing.ImageObject)
    (p : Drawing.QPoint) :
    (Drawing.selectModeClick imgs p).1.length = imgs.length ∧
    (∀ i, (Drawing.selectModeClick imgs p).2 = some i →
      (∃ img, imgs.get? i = some img ∧ img.contains_point p = true) ∧
      (∀ j img', i < j → imgs.get? j = some img' →
        img'.contains_point p = false) ∧
      (∀ j img', imgs.get? j = some img' →
        (Drawing.selectModeClick imgs p).1.get? j =
          some { img' with selected := decide (j = i) })) ∧
    ((Drawing.selectModeClick imgs p).2 = none →
      (∀ img ∈ imgs, img.contains_point p = false) ∧
      (∀ j img', imgs.get? j = some img' →
        (Drawing.selectModeClick imgs p).1.get? j =
          some { img' with selected := false })) := by
  cases hft : Drawing.findTopmost p imgs with
  | none =>
    have hres : Drawing.selectModeClick imgs p =
        (imgs.map (fun img => { img with selected := false }), none) := by
      unfold Drawing.selectModeClick
      rw [hft]
    rw [hres]
    refine ⟨by simp, ?_, ?_⟩
    · intro i hi; simp at hi
    · intro _
      refine ⟨findTopmost_none_spec p imgs hft, ?_⟩
      intro j img' hg
      rw [List.get?_map, hg]
      rfl
  | some i0 =>
    obtain ⟨⟨img0, hg0, hc0⟩, hbound⟩ := findTopmost_some_spec p imgs i0 hft
    have hres : Drawing.selectModeClick imgs p =
        ((imgs.map (fun img => { img with selected := false })).set i0
            { img0 with selected := true }, some i0) := by
      unfold Drawing.selectModeClick
      simp only [hft, hg0]
    have hlt : i0 < imgs.length := List.get?_eq_some.1 hg0 |>.1
    rw [hres]
    refine ⟨by simp, ?_, ?_⟩
    · intro i hi
      simp only [Option.some.injEq] at hi
      subst hi
      refine ⟨⟨img0, hg0, hc0⟩, hbound, ?_⟩
      intro j img' hg
      by_cases hji : j = i0
      · subst hji
        rw [hg0] at hg
        cases hg
        rw [List.get?_set_eq_of_lt _ (by simpa using hlt)]
        simp
      · rw [List.get?_set_ne _ _ (fun hc => hji hc.symm), List.get?_map, hg]
        have hd : decide (j = i0) = false := by simp [hji]
        rw [hd]
        rfl
    · intro hnone; simp at hnone

theorem select_click_selects_topmost_witness :
    (Drawing.selectModeClick [⟨0, 0, 50, 50, false⟩] ⟨10, 10⟩).2 = some 0 ∧
    ∃ img, ([⟨0, 0, 50, 50, false⟩] : List Drawing.ImageObject).get? 0 =
        some img ∧ img.contains_point ⟨10, 10⟩ = true :=
  ⟨by decide, by
    obtain ⟨himg, _, _⟩ :=
      (select_click_selects_topmost [⟨0, 0, 50, 50, false⟩] ⟨10, 10⟩).2.1 0
        (by decide)
    exact himg⟩

theorem swapAdj_cons_succ {α : Type} (y : α) (L : List α) (n : Nat) :
    Drawing.swapAdj (y :: L) (n + 1) = y :: Drawing.swapAdj L n := by
  cases L <;> rfl

theorem swapAdj_append {α : Type} :
    ∀ (l₁ : List α) (a b : α) (l₂ : List α),
      Drawing.swapAdj (l₁ ++ a :: b :: l₂) l₁.length = l₁ ++ b :: a :: l₂ := by
  intro l₁
  induction l₁ with
  | nil => intro a b l₂; rfl
  | cons x t ih =>
    intro a b l₂
    rw [List.cons_append, List.length_cons, swapAdj_cons_succ, ih]
    rfl

theorem indexOf_append_cons_self {α : Type} [DecidableEq α] (s : α) :
    ∀ (l₁ l₂ : List α), s ∉ l₁ → (l₁ ++ s :: l₂).indexOf s = l₁.length := by
  intro l₁
  induction l₁ with
  | nil => intro l₂ _; simp
  | cons a t ih =>
    intro l₂ hnot
    have ha : a ≠ s := fun h => hnot (h ▸ List.mem_cons_self a t)
    rw [List.cons_append, List.indexOf_cons_ne _ ha,
      ih l₂ (fun h => hnot (List.mem_cons_of_mem a h))]
    rfl

/-- **C2.** For every canvas state whose selected image is present in the
(duplicate-free) images list: `bring_to_front` moves it to the last
(topmost) position, `send_to_back` to the first (bottommost) position,
`bring_forward` swaps it with its immediate successor exactly when it is
not already last, and `send_backward` swaps it with its immediate
predecessor exactly when it is not already first; every operation
preserves the relative order of the other images (the sublist of images
different from the selected one) and the multiset of images (a
permutation), and every operation returns `False` and leaves the state
unchanged when no image is selected, or — for the one-step moves — when
the image is already at the respective boundary. -/
theorem zorder_operations_spec {α : Type} [DecidableEq α]
    (c : Drawing.CanvasState α) (hnd : c.images.Nodup) :
    (c.selected_image = none →
      Drawing.bring_to_front c = (false, c) ∧
      Drawing.send_to_back c = (false, c) ∧
      Drawing.bring_forward c = (false, c) ∧
      Drawing.send_backward c = (false, c)) ∧
    (∀ s, c.selected_image = some s → s ∈ c.images →
      (Drawing.bring_to_front c =
          (true, { images := c.images.erase s ++ [s],
                   selected_image := some s }) ∧
        (c.images.erase s ++ [s]).getLast? = some s ∧
        (c.images.erase s ++ [s]).filter (fun x => x != s) =
          c.images.filter (fun x => x != s) ∧
        (c.images.erase s ++ [s]).Perm c.images) ∧
      (Drawing.send_to_back c =
          (true, { images := s :: c.images.erase s,
                   selected_image := some s }) ∧
        (s :: c.images.erase s).head? = some s ∧
        (s :: c.images.erase s).filter (fun x => x != s) =
          c.images.filter (fun x => x != s) ∧
        (s :: c.images.erase s).Perm c.images) ∧
      ((c.images.getLast? = some s →
          Drawing.bring_forward c = (false, c)) ∧
        (c.images.getLast? ≠ some s →
          ∃ l₁ b l₂, c.images = l₁ ++ s :: b :: l₂ ∧
            Drawing.bring_forward c =
              (true, { images := l₁ ++ b :: s :: l₂,
                       selected_image := some s }) ∧
            (l₁ ++ b :: s :: l₂).filter (fun x => x != s) =
              c.images.filter (fun x => x != s) ∧
            (l₁ ++ b :: s :: l₂).Perm c.images)) ∧
      ((c.images.head? = some s →
          Drawing.send_backward c = (false, c)) ∧
        (c.images.head? ≠ some s →
          ∃ l₁ b l₂, c.images = l₁ ++ b :: s :: l₂ ∧
            Drawing.send_backward c =
              (true, { images := l₁ ++ s :: b :: l₂,
                       selected_image := some s }) ∧
            (l₁ ++ s :: b :: l₂).filter (fun x => x != s) =
              c.images.filter (fun x => x != s) ∧
            (l₁ ++ s :: b :: l₂).Perm c.images))) := by
  obtain ⟨imgs, sel⟩ := c
  constructor
  · rintro rfl
    exact ⟨rfl, rfl, rfl, rfl⟩
  · rintro s rfl hmem
    obtain ⟨l₁, l₂, hdec⟩ := List.append_of_mem hmem
    subst hdec
    have hs_mid : (s :: (l₁ ++ l₂)).Nodup := List.nodup_middle.1 hnd
    have hs_not : s ∉ l₁ ++ l₂ := (List.nodup_cons.1 hs_mid).1
    have hs_l₁ : s ∉ l₁ := fun h => hs_not (List.mem_append_left _ h)
    have hs_l₂ : s ∉ l₂ := fun h => hs_not (List.mem_append_right _ h)
    have herase : (l₁ ++ s :: l₂).erase s = l₁ ++ l₂ := by
      rw [List.erase_append_right _ hs_l₁, List.erase_cons_head]
    have hfilter_not : ∀ m : List α, s ∉ m →
        m.filter (fun x => x != s) = m := by
      intro m hm
      rw [List.filter_eq_self]
      intro a ha
      simp only [bne_iff_ne, ne_eq]
      intro he
      exact hm (he ▸ ha)
    have hfilter_main : (l₁ ++ s :: l₂).filter (fun x => x != s) =
        l₁ ++ l₂ := by
      rw [List.filter_append, List.filter_cons]
      simp only [bne_self_eq_false, Bool.false_eq_true, if_false]
      rw [hfilter_not l₁ hs_l₁, hfilter_not l₂ hs_l₂]
    have hidx : (l₁ ++ s :: l₂).indexOf s = l₁.length :=
      indexOf_append_cons_self s l₁ l₂ hs_l₁
    refine ⟨?_, ?_, ⟨?_, ?_⟩, ⟨?_, ?_⟩⟩
    · -- bring_to_front
      refine ⟨by simp [Drawing.bring_to_front, hmem],
        List.getLast?_concat _, ?_,
        (List.perm_append_singleton _ _).trans
          (List.perm_cons_erase hmem).symm⟩
      have h1 : ((l₁ ++ l₂) ++ [s]).filter (fun x => x != s) = l₁ ++ l₂ := by
        rw [List.filter_append, hfilter_not _ hs_not, List.filter_cons]
        simp
      rw [herase, h1, hfilter_main]
    · -- send_to_back
      refine ⟨by simp [Drawing.send_to_back, hmem], rfl, ?_,
        (List.perm_cons_erase hmem).symm⟩
      rw [herase, List.filter_cons]
      simp only [bne_self_eq_false, Bool.false_eq_true, if_false]
      rw [List.filter_append, hfilter_not l₁ hs_l₁, hfilter_not l₂ hs_l₂,
        hfilter_main]
    · -- bring_forward: already last
      intro hlast
      have hl₂ : l₂ = [] := by
        cases l₂ with
        | nil => rfl
        | cons b l₂' =>
          exfalso
          rw [List.getLast?_append_of_ne_nil _ (by simp)] at hlast
          have h2 : (s :: b :: l₂').getLast? = (b :: l₂').getLast? := by
            rw [show s :: b :: l₂' = [s] ++ b :: l₂' from rfl,
              List.getLast?_append_of_ne_nil _ (by simp)]
          rw [h2] at hlast
          exact hs_l₂ (List.mem_of_mem_getLast? hlast)
      subst hl₂
      simp [Drawing.bring_forward, hmem]
      exact le_of_eq hidx.symm
    · -- bring_forward: not last
      intro hne
      cases l₂ with
      | nil => exact absurd (List.getLast?_concat _) hne
      | cons b l₂' =>
        have hbs : (b != s) = true := by
          simp only [bne_iff_ne, ne_eq]
          intro h
          apply hs_l₂
          rw [← h]
          exact List.mem_cons_self b l₂'
        have hcond : (l₁ ++ s :: b :: l₂').indexOf s <
            (l₁ ++ s :: b :: l₂').length - 1 := by
          rw [hidx, List.length_append]
          simp only [List.length_cons]
          omega
        have hswap : Drawing.swapAdj (l₁ ++ s :: b :: l₂')
            ((l₁ ++ s :: b :: l₂').indexOf s) = l₁ ++ b :: s :: l₂' := by
          rw [hidx]
          exact swapAdj_append l₁ s b l₂'
        refine ⟨l₁, b, l₂', rfl, ?_, ?_, ?_⟩
        · simp [Drawing.bring_forward, hmem, hcond, hswap]
          rw [hidx]
          omega
        · rw [List.filter_append, List.filter_append, hfilter_not l₁ hs_l₁]
          rw [List.filter_cons, List.filter_cons, List.filter_cons,
            List.filter_cons]
          simp only [hbs, if_true, bne_self_eq_false, Bool.false_eq_true,
            if_false]
        · exact List.Perm.append_left l₁ (List.Perm.swap s b l₂')
    · -- send_backward: already first
      intro hhead
      have hl₁ : l₁ = [] := by
        cases l₁ with
        | nil => rfl
        | cons a t =>
          exfalso
          simp only [List.cons_append, List.head?_cons,
            Option.some.injEq] at hhead
          apply hs_l₁
          rw [← hhead]
          exact List.mem_cons_self a t
      subst hl₁
      have hcond : ¬ (0 < (([] : List α) ++ s :: l₂).indexOf s) := by
        rw [hidx]
        simp
      simp [Drawing.send_backward, hmem, hcond]
    · -- send_backward: not first
      intro hne
      cases l₁ with
      | nil => exact absurd rfl hne
      | cons a t =>
        obtain h | ⟨L, b, hLb⟩ := List.eq_nil_or_concat (a :: t)
        · simp at h
        · have hL : a :: t = L ++ [b] := by
            rw [hLb, List.concat_eq_append]
          have hdecomp : (a :: t) ++ s :: l₂ = L ++ b :: s :: l₂ := by
            rw [hL, List.append_assoc]
            rfl
          have hs_L : s ∉ L := fun h =>
            hs_l₁ (by rw [hL]; exact List.mem_append_left _ h)
          have hsb : s ≠ b := fun h =>
            hs_l₁ (by
              rw [hL, h]
              exact List.mem_append_right _ (List.mem_cons_self b []))
          have hbs : (b != s) = true := by
            simp only [bne_iff_ne, ne_eq]
            intro h
            exact hsb (h.symm)
          have hlen : (a :: t).length = L.length + 1 := by
            rw [hL, List.length_append]
            rfl
          have hcond : 0 < ((a :: t) ++ s :: l₂).indexOf s := by
            rw [hidx]
            simp
          have hswap : Drawing.swapAdj ((a :: t) ++ s :: l₂)
              (((a :: t) ++ s :: l₂).indexOf s - 1) = L ++ s :: b :: l₂ := by
            rw [hidx, hlen, Nat.add_sub_cancel, hdecomp]
            exact swapAdj_append L b s l₂
          have hcond6 : 0 < List.indexOf s (a :: (t ++ s :: l₂)) := hcond
          have hswap6 : Drawing.swapAdj (a :: (t ++ s :: l₂))
              (List.indexOf s (a :: (t ++ s :: l₂)) - 1) =
              L ++ s :: b :: l₂ := hswap
          refine ⟨L, b, l₂, hdecomp, ?_, ?_, ?_⟩
          · simp [Drawing.send_backward, hmem, hcond6, hswap6]
          · rw [hdecomp, List.filter_append, List.filter_append,
              hfilter_not L hs_L]
            rw [List.filter_cons, List.filter_cons, List.filter_cons,
              List.filter_cons]
            simp only [hbs, if_true, bne_self_eq_false, Bool.false_eq_true,
              if_false]
          · rw [hdecomp]
            exact List.Perm.append_left L (List.Perm.swap b s l₂)

theorem zorder_operations_spec_witness :
    ([1, 2, 3] : List Nat).Nodup ∧
    Drawing.bring_to_front (⟨[1, 2, 3], some 2⟩ : Drawing.CanvasState Nat) =
      (true, ⟨[1, 3, 2], some 2⟩) ∧
    Drawing.send_to_back (⟨[1, 2, 3], some 2⟩ : Drawing.CanvasState Nat) =
      (true, ⟨[2, 1, 3], some 2⟩) := by
  refine ⟨by decide, ?_, ?_⟩
  · have h := ((zorder_operations_spec
      (⟨[1, 2, 3], some 2⟩ : Drawing.CanvasState Nat) (by decide)).2 2 rfl
      (by decide)).1.1
    rw [h]
    rfl
  · have h := ((zorder_operations_spec
      (⟨[1, 2, 3], some 2⟩ : Drawing.CanvasState Nat) (by decide)).2 2 rfl
      (by decide)).2.1.1
    rw [h]
    rfl

theorem rfindAux_eq_none (c : Char) :
    ∀ l : List Char, FileOps.rfindAux c l = none ↔ c ∉ l := by
  intro l
  induction l with
  | nil => simp [FileOps.rfindAux]
  | cons a t ih =>
    constructor
    · intro h
      unfold FileOps.rfindAux at h
      cases ht : FileOps.rfindAux c t with
      | some i => simp only [ht] at h; exact absurd h (by simp)
      | none =>
        simp only [ht] at h
        by_cases hac : a = c
        · rw [if_pos hac] at h
          simp at h
        · intro hmem
          rcases List.mem_cons.1 hmem with h1 | h2
          · exact hac h1.symm
          · exact (ih.1 ht) h2
    · intro hmem
      have ht : FileOps.rfindAux c t = none :=
        ih.2 (fun h => hmem (List.mem_cons_of_mem a h))
      unfold FileOps.rfindAux
      simp only [ht]
      rw [if_neg (fun h : a = c => hmem (by rw [h]; exact List.mem_cons_self c t))]

theorem rfindAux_append (c : Char) (n : List Char) (hn : ∀ x ∈ n, x ≠ c) :
    ∀ d : List Char, FileOps.rfindAux c (d ++ c :: n) = some d.length := by
  intro d
  induction d with
  | nil =>
    have hnone : FileOps.rfindAux c n = none :=
      (rfindAux_eq_none c n).2 (fun h => hn c h rfl)
    simp only [List.nil_append]
    unfold FileOps.rfindAux
    simp [hnone]
  | cons a t ih =>
    simp only [List.cons_append]
    unfold FileOps.rfindAux
    simp [ih]

theorem rfindAux_get (c : Char) :
    ∀ (l : List Char) (i : Nat), FileOps.rfindAux c l = some i →
      l.get? i = some c := by
  intro l
  induction l with
  | nil => intro i h; simp [FileOps.rfindAux] at h
  | cons a t ih =>
    intro i h
    unfold FileOps.rfindAux at h
    cases ht : FileOps.rfindAux c t with
    | some j =>
      simp only [ht, Option.some.injEq] at h
      subst h
      simpa using ih j ht
    | none =>
      simp only [ht] at h
      by_cases hac : a = c
      · rw [if_pos hac] at h
        simp only [Option.some.injEq] at h
        subst h
        simpa using hac
      · rw [if_neg hac] at h
        simp at h

theorem rfindAux_drop (c : Char) :
    ∀ (l : List Char) (i : Nat), FileOps.rfindAux c l = some i →
      ∀ x ∈ l.drop (i + 1), x ≠ c := by
  intro l
  induction l with
  | nil => intro i h; simp [FileOps.rfindAux] at h
  | cons a t ih =>
    intro i h
    unfold FileOps.rfindAux at h
    cases ht : FileOps.rfindAux c t with
    | some j =>
      simp only [ht, Option.some.injEq] at h
      subst h
      intro x hx
      exact ih j ht x (by simpa using hx)
    | none =>
      simp only [ht] at h
      by_cases hac : a = c
      · rw [if_pos hac] at h
        simp only [Option.some.injEq] at h
        subst h
        intro x hx
        simp only [List.drop_succ_cons, List.drop_zero] at hx
        intro hxc
        exact ((rfindAux_eq_none c t).1 ht) (hxc ▸ hx)
      · rw [if_neg hac] at h
        simp at h

theorem basename_no_slash (p : List Char) :
    ∀ x ∈ FileOps.basename p, x ≠ '/' := by
  intro x hx
  unfold FileOps.basename FileOps.rfind at hx
  cases hf : FileOps.rfindAux '/' p with
  | none =>
    simp only [hf] at hx
    norm_num at hx
    exact fun h => ((rfindAux_eq_none '/' p).1 hf) (h ▸ hx)
  | some k =>
    simp only [hf] at hx
    have hk : ((k : Int) + 1).toNat = k + 1 := by omega
    rw [hk] at hx
    exact rfindAux_drop '/' p k hf x hx

theorem splitext_fst_subset (q : List Char) :
    ∀ x ∈ (FileOps.splitext q).1, x ∈ q := by
  intro x hx
  simp only [FileOps.splitext] at hx
  split_ifs at hx
  · exact List.take_subset _ _ hx
  · exact hx
  · exact hx

theorem rstripSlash_append_slash (l : List Char) :
    FileOps.rstripSlash (l ++ ['/']) = FileOps.rstripSlash l := by
  unfold FileOps.rstripSlash
  rw [List.reverse_append]
  simp only [List.reverse_singleton, List.singleton_append,
    List.dropWhile_cons]
  rw [if_pos (by decide)]

theorem rstripSlash_eq_self (l : List Char) (ch : Char)
    (hlast : l.getLast? = some ch) (hch : ch ≠ '/') :
    FileOps.rstripSlash l = l := by
  obtain ⟨rest, hrev⟩ : ∃ rest, l.reverse = ch :: rest := by
    cases hr : l.reverse with
    | nil =>
      rw [← List.head?_reverse, hr] at hlast
      simp at hlast
    | cons a r =>
      rw [← List.head?_reverse, hr] at hlast
      simp only [List.head?_cons, Option.some.injEq] at hlast
      subst hlast
      exact ⟨r, rfl⟩
  unfold FileOps.rstripSlash
  rw [hrev, List.dropWhile_cons, if_neg (by simp [hch]), ← hrev,
    List.reverse_reverse]

theorem dropWhile_slash_head (l : List Char) (h : ∃ x ∈ l, x ≠ '/') :
    ∃ ch, (l.dropWhile (fun c => c = '/')).head? = some ch ∧ ch ≠ '/' := by
  induction l with
  | nil => simp at h
  | cons a t ih =>
    by_cases ha : a = '/'
    · rw [List.dropWhile_cons, if_pos (by simp [ha])]
      apply ih
      obtain ⟨x, hx, hxs⟩ := h
      rcases List.mem_cons.1 hx with h1 | h2
      · exact absurd (h1.trans ha) hxs
      · exact ⟨x, h2, hxs⟩
    · rw [List.dropWhile_cons, if_neg (by simp [ha])]
      exact ⟨a, rfl, ha⟩

theorem rstripSlash_last (l : List Char) (h : ∃ x ∈ l, x ≠ '/') :
    ∃ ch, (FileOps.rstripSlash l).getLast? = some ch ∧ ch ≠ '/' := by
  unfold FileOps.rstripSlash
  rw [List.getLast?_reverse]
  apply dropWhile_slash_head
  obtain ⟨x, hx, hxs⟩ := h
  exact ⟨x, List.mem_reverse.2 hx, hxs⟩

theorem dirname_append_slash (q n : List Char) (hn : ∀ x ∈ n, x ≠ '/') :
    FileOps.dirname ((q ++ ['/']) ++ n) =
      (if (q ++ ['/']) ≠ [] ∧ (q ++ ['/']).any (fun c => c ≠ '/') then
        FileOps.rstripSlash (q ++ ['/'])
      else q ++ ['/']) := by
  have hrf : FileOps.rfindAux '/' ((q ++ ['/']) ++ n) = some q.length := by
    rw [List.append_assoc]
    simp only [List.singleton_append]
    exact rfindAux_append '/' n hn q
  have htoNat : ((q.length : Int) + 1).toNat = q.length + 1 := by omega
  have htake : ((q ++ ['/']) ++ n).take (q.length + 1) = q ++ ['/'] := by
    have hl : q.length + 1 = (q ++ ['/']).length := by simp
    rw [hl, List.take_left]
  unfold FileOps.dirname FileOps.rfind
  simp only [hrf, htoNat, htake]

theorem dirname_join_dirname (p n : List Char) (hn : ∀ x ∈ n, x ≠ '/')
    (hne : n ≠ []) :
    FileOps.dirname (FileOps.join (FileOps.dirname p) n) =
      FileOps.dirname p := by
  obtain ⟨a0, n', hn0⟩ : ∃ a0 n', n = a0 :: n' := by
    cases n with
    | nil => exact absurd rfl hne
    | cons a0 n' => exact ⟨a0, n', rfl⟩
  have hhead_n : ¬ (n.head? = some '/') := by
    rw [hn0]
    simp only [List.head?_cons, Option.some.injEq]
    exact hn a0 (by rw [hn0]; exact List.mem_cons_self a0 n')
  cases hf : FileOps.rfindAux '/' p with
  | none =>
    have hdp : FileOps.dirname p = [] := by
      unfold FileOps.dirname FileOps.rfind
      simp [hf]
    rw [hdp]
    have hjoin : FileOps.join [] n = n := by
      unfold FileOps.join
      rw [if_neg hhead_n, if_pos (Or.inl rfl)]
      simp
    rw [hjoin]
    unfold FileOps.dirname FileOps.rfind
    have hf_n : FileOps.rfindAux '/' n = none :=
      (rfindAux_eq_none '/' n).2 (fun h => hn '/' h rfl)
    simp [hf_n]
  | some k =>
    have hgk : p.get? k = some '/' := rfindAux_get '/' p k hf
    have hgk' : p[k]? = some '/' := by
      rw [← List.get?_eq_getElem?]
      exact hgk
    have hhead : p.take (k + 1) = p.take k ++ ['/'] := by
      rw [List.take_succ, hgk']
      rfl
    have htoNat : ((k : Int) + 1).toNat = k + 1 := by omega
    have hdp : FileOps.dirname p =
        (if p.take (k + 1) ≠ [] ∧ (p.take (k + 1)).any (fun c => c ≠ '/')
         then FileOps.rstripSlash (p.take (k + 1))
         else p.take (k + 1)) := by
      unfold FileOps.dirname FileOps.rfind
      simp only [hf, htoNat]
    set q := p.take k with hq
    by_cases hall : (p.take (k + 1)).any (fun c => c ≠ '/') = true
    · -- head contains a non-slash character
      have hq_any : ∃ x ∈ q, x ≠ '/' := by
        rw [hhead] at hall
        simp only [List.any_append, Bool.or_eq_true] at hall
        rcases hall with h1 | h2
        · simpa using h1
        · simp at h2
      have hdp' : FileOps.dirname p = FileOps.rstripSlash q := by
        rw [hdp, if_pos ⟨by rw [hhead]; simp, hall⟩, hhead,
          rstripSlash_append_slash]
      obtain ⟨ch, hch_last, hch⟩ := rstripSlash_last q hq_any
      set d := FileOps.rstripSlash q with hd
      have hd_ne : d ≠ [] := by
        intro h
        rw [h] at hch_last
        simp at hch_last
      have hjoin : FileOps.join d n = (d ++ ['/']) ++ n := by
        unfold FileOps.join
        rw [if_neg hhead_n, if_neg ?_]
        · rw [List.append_assoc]
          rfl
        · rintro (h | h)
          · exact hd_ne h
          · rw [hch_last] at h
            simp only [Option.some.injEq] at h
            exact hch h
      have hd_any : (d ++ ['/']).any (fun c => c ≠ '/') = true := by
        simp only [List.any_append, Bool.or_eq_true]
        left
        have hch_mem : ch ∈ d := List.mem_of_mem_getLast? hch_last
        simp only [List.any_eq_true]
        exact ⟨ch, hch_mem, by simpa using hch⟩
      rw [hdp', hjoin, dirname_append_slash d n hn,
        if_pos ⟨by simp, hd_any⟩, rstripSlash_append_slash,
        rstripSlash_eq_self d ch hch_last hch]
    · -- head is all slashes
      have hdp' : FileOps.dirname p = q ++ ['/'] := by
        rw [hdp, if_neg ?_, hhead]
        rintro ⟨h1, h2⟩
        exact hall h2
      have hjoin : FileOps.join (q ++ ['/']) n = (q ++ ['/']) ++ n := by
        unfold FileOps.join
        rw [if_neg hhead_n, if_pos (Or.inr (List.getLast?_concat q))]
      rw [hdp', hjoin, dirname_append_slash q n hn, if_neg ?_]
      rintro ⟨h1, h2⟩
      rw [← hhead] at h2
      exact hall h2

/-- **C1.** For every save with a known target file, `save_file` writes
the editor's plain text to that `.txt` file and, exactly when the drawing
pad reports a drawing (`has_drawing` is true), also writes the composited
canvas as a PNG named `<basename>_drawing.png`; when no drawing exists no
PNG is written.  The PNG path is
`os.path.join(os.path.dirname(current_file), base_name + "_drawing.png")`,
and its directory is the directory of the text file — the PNG lands in
the same folder. -/
theorem save_file_spec (editor_text current_file : List Char) (hd : Bool) :
    (FileOps.save_file editor_text current_file hd).text_path =
      current_file ∧
    (FileOps.save_file editor_text current_file hd).text_content =
      editor_text ∧
    (FileOps.save_file editor_text current_file hd).png_path =
      (if hd then
        some (FileOps.join (FileOps.dirname current_file)
          (FileOps.drawingFileName current_file))
       else none) ∧
    FileOps.dirname (FileOps.join (FileOps.dirname current_file)
        (FileOps.drawingFileName current_file)) =
      FileOps.dirname current_file := by
  refine ⟨rfl, rfl, rfl, ?_⟩
  apply dirname_join_dirname
  · intro x hx
    unfold FileOps.drawingFileName at hx
    rcases List.mem_append.1 hx with h1 | h2
    · exact basename_no_slash current_file x
        (splitext_fst_subset (FileOps.basename current_file) x h1)
    · have hlit : ∀ y ∈ "_drawing.png".toList, y ≠ '/' := by decide
      exact hlit x h2
  · unfold FileOps.drawingFileName
    simp

theorem length_dropWhile_le {α : Type} (p : α → Bool) (l : List α) :
    (l.dropWhile p).length ≤ l.length := by
  induction l with
  | nil => simp [List.dropWhile]
  | cons a t ih =>
    rw [List.dropWhile_cons]
    by_cases h : p a = true
    · rw [if_pos h]
      exact Nat.le_succ_of_le ih
    · rw [if_neg h]

theorem dropWhile_head?_false {α : Type} (p : α → Bool) :
    ∀ (l : List α) (x : α), (l.dropWhile p).head? = some x → p x = false := by
  intro l
  induction l with
  | nil => intro x h; simp [List.dropWhile] at h
  | cons a t ih =>
    intro x h
    rw [List.dropWhile_cons] at h
    by_cases ha : p a = true
    · rw [if_pos ha] at h
      exact ih x h
    · rw [if_neg ha] at h
      simp only [List.head?_cons, Option.some.injEq] at h
      subst h
      simpa using ha

theorem run_letters (c : Char) (rest : List Char)
    (hc : Spell.isLetterChar c = true) :
    ∀ x ∈ c :: rest.takeWhile Spell.isLetterChar,
      Spell.isLetterChar x = true := by
  intro x hx
  rcases List.mem_cons.1 hx with h | h
  · exact h ▸ hc
  · exact List.mem_takeWhile_imp h

theorem isRegexMatch_bounds (isW : Char → Bool) (t : List Char)
    (s e : Nat) (w : List Char) (h : Spell.IsRegexMatch isW t s e w) :
    s < t.length ∧ 0 < w.length := by
  obtain ⟨hw_ne, he, helen, _, _, _, _⟩ := h
  have := List.length_pos.2 hw_ne
  constructor <;> omega

theorem match_at_run_start (isW : Char → Bool)
    (hsub : ∀ c, Spell.isLetterChar c = true → isW c = true)
    (t : List Char) (i : Nat) (c : Char)
    (rest : List Char) (hdrop : t.drop i = c :: rest)
    (s e : Nat) (w : List Char)
    (hmatch : Spell.IsRegexMatch isW t s e w) (hs : s = i) :
    w = c :: rest.takeWhile Spell.isLetterChar ∧
    e = i + (c :: rest.takeWhile Spell.isLetterChar).length ∧
    (rest.dropWhile Spell.isLetterChar).head?.all
      (fun d => !isW d) = true := by
  subst hs
  obtain ⟨hw_ne, he, helen, hslice, hletters, hleft, hright⟩ := hmatch
  set run := c :: rest.takeWhile Spell.isLetterChar with hrun
  set rest' := rest.dropWhile Spell.isLetterChar with hrest'
  have hsplit : c :: rest = run ++ rest' := by
    rw [hrun, hrest', List.cons_append, List.takeWhile_append_dropWhile]
  have hdropT : t.drop s = run ++ rest' := by rw [hdrop, hsplit]
  have hslice' : w = (run ++ rest').take w.length := by
    rw [← hdropT]
    exact hslice
  have hw_pos : 0 < w.length := List.length_pos.2 hw_ne
  have hwlen_le : w.length ≤ run.length + rest'.length := by
    have h1 := congrArg List.length hslice'
    rw [List.length_take, List.length_append] at h1
    omega
  have hgs : t.get? s = some c := by
    have h0 := List.get?_drop t s 0
    rw [hdrop] at h0
    simpa using h0.symm
  have hs_lt : s < t.length := (List.get?_eq_some.1 hgs).1
  have hlenT := List.length_drop s t
  rw [hdropT, List.length_append] at hlenT
  have hle_run : w.length ≤ run.length := by
    by_contra hgt
    push_neg at hgt
    have hrest_pos : 0 < rest'.length := by omega
    obtain ⟨d, rest'', hdr⟩ : ∃ d rest'', rest' = d :: rest'' := by
      cases hx : rest' with
      | nil => rw [hx] at hrest_pos; simp at hrest_pos
      | cons d r => exact ⟨d, r, rfl⟩
    have hwd : w.get? run.length = some d := by
      rw [hslice', List.get?_take hgt, List.get?_append_right (le_refl _)]
      simp [hdr]
    have hd_letter : Spell.isLetterChar d = true :=
      hletters d (List.get?_mem hwd)
    have hd_not : Spell.isLetterChar d = false :=
      dropWhile_head?_false Spell.isLetterChar rest d
        (by rw [← hrest', hdr]; rfl)
    rw [hd_letter] at hd_not
    exact absurd hd_not (by simp)
  have hge_run : run.length ≤ w.length := by
    by_contra hlt
    push_neg at hlt
    have he_lt : e < t.length := by omega
    have hgetE : t.get? e = run.get? w.length := by
      have h0 := List.get?_drop t s w.length
      rw [hdropT, List.get?_append hlt] at h0
      rw [he]
      exact h0.symm
    cases hre : run.get? w.length with
    | none =>
      rw [List.get?_eq_none] at hre
      omega
    | some x =>
      have hc : Spell.isLetterChar c = true := by
        have hw0 : w.get? 0 = some c := by
          rw [hslice', List.get?_take hw_pos]
          rw [hrun]
          rfl
        exact hletters c (List.get?_mem hw0)
      have hx_letter : Spell.isLetterChar x = true :=
        run_letters c rest hc x (List.get?_mem hre)
      rcases hright with h | ⟨c₁, hg1, hw1⟩
      · omega
      · rw [hgetE, hre] at hg1
        simp only [Option.some.injEq] at hg1
        subst hg1
        rw [hsub x hx_letter] at hw1
        exact absurd hw1 (by simp)
  have hwlen : w.length = run.length := le_antisymm hle_run hge_run
  have hw_eq : w = run := by
    rw [hslice', hwlen, List.take_left]
  refine ⟨hw_eq, by rw [he, hwlen], ?_⟩
  have hdrop_run : t.drop (s + run.length) = rest' := by
    have h1 : t.drop (s + run.length) = (t.drop s).drop run.length :=
      (List.drop_drop run.length s t).symm
    rw [h1, hdropT, List.drop_left]
  cases hdr : rest' with
  | nil => rfl
  | cons d rest'' =>
    have hgetE : t.get? e = some d := by
      have h0 := List.get?_drop t (s + run.length) 0
      rw [hdrop_run, hdr] at h0
      rw [he, hwlen]
      simpa using h0.symm
    rcases hright with h | ⟨c₁, hg1, hw1⟩
    · rw [h, List.get?_eq_none.2 (le_refl _)] at hgetE
      exact absurd hgetE (by simp)
    · rw [hg1] at hgetE
      simp only [Option.some.injEq] at hgetE
      subst hgetE
      simpa [Option.all] using hw1

theorem run_is_match (isW : Char → Bool) (t : List Char) (i : Nat)
    (c : Char) (rest : List Char)
    (hdrop : t.drop i = c :: rest)
    (hc : Spell.isLetterChar c = true)
    (hbound : i = 0 ∨ ∃ c₀, t.get? (i - 1) = some c₀ ∧
      isW c₀ = false)
    (hro : (rest.dropWhile Spell.isLetterChar).head?.all
      (fun d => !isW d) = true) :
    Spell.IsRegexMatch isW t i
      (i + (c :: rest.takeWhile Spell.isLetterChar).length)
      (c :: rest.takeWhile Spell.isLetterChar) := by
  set run := c :: rest.takeWhile Spell.isLetterChar with hrun
  set rest' := rest.dropWhile Spell.isLetterChar with hrest'
  have hsplit : c :: rest = run ++ rest' := by
    rw [hrun, hrest', List.cons_append, List.takeWhile_append_dropWhile]
  have hdropT : t.drop i = run ++ rest' := by rw [hdrop, hsplit]
  have hdrop_run : t.drop (i + run.length) = rest' := by
    have h1 : t.drop (i + run.length) = (t.drop i).drop run.length :=
      (List.drop_drop run.length i t).symm
    rw [h1, hdropT, List.drop_left]
  have hgi : t.get? i = some c := by
    have h0 := List.get?_drop t i 0
    rw [hdrop] at h0
    simpa using h0.symm
  have hi_lt : i < t.length := (List.get?_eq_some.1 hgi).1
  have hlenT := List.length_drop i t
  rw [hdropT, List.length_append] at hlenT
  have hlen_run : i + run.length ≤ t.length := by omega
  refine ⟨by simp [hrun], rfl, hlen_run, ?_, run_letters c rest hc,
    hbound, ?_⟩
  · rw [hdropT]
    exact (List.take_left run rest').symm
  · cases hdr : rest' with
    | nil =>
      left
      have h2 : t.length ≤ i + run.length :=
        List.drop_eq_nil_iff_le.1 (by rw [hdrop_run, hdr])
      omega
    | cons d rest'' =>
      right
      have hgd : t.get? (i + run.length) = some d := by
        have h0 := List.get?_drop t (i + run.length) 0
        rw [hdrop_run, hdr] at h0
        simpa using h0.symm
      refine ⟨d, hgd, ?_⟩
      rw [hdr] at hro
      simpa [Option.all] using hro

theorem match_inside_run_impossible (isW : Char → Bool)
    (hsub : ∀ c, Spell.isLetterChar c = true → isW c = true)
    (t : List Char) (i : Nat) (c : Char)
    (rest : List Char) (hdrop : t.drop i = c :: rest)
    (hc : Spell.isLetterChar c = true)
    (s e : Nat) (w : List Char)
    (hmatch : Spell.IsRegexMatch isW t s e w)
    (hgt : i < s)
    (hlt : s < i + (c :: rest.takeWhile Spell.isLetterChar).length) :
    False := by
  obtain ⟨hw_ne, he, helen, hslice, hletters, hleft, hright⟩ := hmatch
  set run := c :: rest.takeWhile Spell.isLetterChar with hrun
  set rest' := rest.dropWhile Spell.isLetterChar with hrest'
  have hsplit : c :: rest = run ++ rest' := by
    rw [hrun, hrest', List.cons_append, List.takeWhile_append_dropWhile]
  have hdropT : t.drop i = run ++ rest' := by rw [hdrop, hsplit]
  rcases hleft with h0 | ⟨c₀, hg0, hw0⟩
  · omega
  · have hidx : s - 1 - i < run.length := by omega
    have hgs : t.get? (s - 1) = run.get? (s - 1 - i) := by
      have h0 := List.get?_drop t i (s - 1 - i)
      rw [hdropT, List.get?_append hidx] at h0
      have h2 : i + (s - 1 - i) = s - 1 := by omega
      rw [h2] at h0
      exact h0.symm
    cases hre : run.get? (s - 1 - i) with
    | none =>
      rw [List.get?_eq_none] at hre
      omega
    | some x =>
      have hx_letter : Spell.isLetterChar x = true :=
        run_letters c rest hc x (List.get?_mem hre)
      rw [hgs, hre] at hg0
      simp only [Option.some.injEq] at hg0
      subst hg0
      rw [hsub x hx_letter] at hw0
      exact absurd hw0 (by simp)

theorem wordsAux_mem_iff (isW : Char → Bool)
    (hsub : ∀ c, Spell.isLetterChar c = true → isW c = true)
    (t : List Char) :
    ∀ (fuel : Nat) (l : List Char), l.length ≤ fuel →
      ∀ (i : Nat) (prevW : Bool), t.drop i = l →
      (i = 0 → prevW = false) →
      (∀ j, i = j + 1 → ∃ c0, t.get? j = some c0 ∧
        prevW = isW c0) →
      ∀ s e w, ((s, e, w) ∈ Spell.wordsAux isW prevW i l ↔
        (Spell.IsRegexMatch isW t s e w ∧ i ≤ s)) := by
  intro fuel
  induction fuel with
  | zero =>
    intro l hlen i prevW hdrop hinv0 hinv1 s e w
    have hl : l = [] := List.eq_nil_of_length_eq_zero (Nat.le_zero.1 hlen)
    subst hl
    constructor
    · intro hm
      simp [Spell.wordsAux] at hm
    · rintro ⟨hmatch, his⟩
      exfalso
      obtain ⟨hs_lt, hw_pos⟩ := isRegexMatch_bounds isW t s e w hmatch
      have hlen_t : t.length ≤ i := by
        have h0 := congrArg List.length hdrop
        rw [List.length_drop] at h0
        simp at h0
        omega
      omega
  | succ fuel ih =>
    intro l hlen i prevW hdrop hinv0 hinv1 s e w
    cases l with
    | nil =>
      constructor
      · intro hm
        simp [Spell.wordsAux] at hm
      · rintro ⟨hmatch, his⟩
        exfalso
        obtain ⟨hs_lt, hw_pos⟩ := isRegexMatch_bounds isW t s e w hmatch
        have hlen_t : t.length ≤ i := by
          have h0 := congrArg List.length hdrop
          rw [List.length_drop] at h0
          simp at h0
          omega
        omega
    | cons c rest =>
      have hti : t.get? i = some c := by
        have h0 := List.get?_drop t i 0
        rw [hdrop] at h0
        simpa using h0.symm
      have hi_lt : i < t.length := (List.get?_eq_some.1 hti).1
      by_cases hA : (Spell.isLetterChar c && !prevW) = true
      · -- the scan is at the start of a letter run
        have hc : Spell.isLetterChar c = true := (Bool.and_eq_true_iff.1 hA).1
        have hprev : prevW = false := by
          have h2 := (Bool.and_eq_true_iff.1 hA).2
          simpa using h2
        have hsplit : c :: rest =
            (c :: rest.takeWhile Spell.isLetterChar) ++
              rest.dropWhile Spell.isLetterChar := by
          rw [List.cons_append, List.takeWhile_append_dropWhile]
        have hdropT : t.drop i =
            (c :: rest.takeWhile Spell.isLetterChar) ++
              rest.dropWhile Spell.isLetterChar := by
          rw [hdrop, hsplit]
        have hdrop_run : t.drop
            (i + (c :: rest.takeWhile Spell.isLetterChar).length) =
            rest.dropWhile Spell.isLetterChar := by
          have h1 := (List.drop_drop
            (c :: rest.takeWhile Spell.isLetterChar).length i t).symm
          rw [h1, hdropT, List.drop_left]
        have hlenT := List.length_drop i t
        rw [hdropT, List.length_append] at hlenT
        have hrun_pos : 0 < (c :: rest.takeWhile Spell.isLetterChar).length :=
          by simp
        have hinv1' : ∀ j,
            i + (c :: rest.takeWhile Spell.isLetterChar).length = j + 1 →
            ∃ c0, t.get? j = some c0 ∧ true = isW c0 := by
          intro j hj
          cases hre : (c :: rest.takeWhile Spell.isLetterChar).get?
              ((c :: rest.takeWhile Spell.isLetterChar).length - 1) with
          | none =>
            rw [List.get?_eq_none] at hre
            omega
          | some cl =>
            have hcl : Spell.isLetterChar cl = true :=
              run_letters c rest hc cl (List.get?_mem hre)
            refine ⟨cl, ?_, (hsub cl hcl).symm⟩
            have h0 := List.get?_drop t i
              ((c :: rest.takeWhile Spell.isLetterChar).length - 1)
            rw [hdropT, List.get?_append (by omega), hre] at h0
            have h2 : j = i +
                ((c :: rest.takeWhile Spell.isLetterChar).length - 1) := by
              omega
            rw [h2]
            exact h0.symm
        have hrest_fuel : (rest.dropWhile Spell.isLetterChar).length ≤ fuel := by
          have h1 := length_dropWhile_le Spell.isLetterChar rest
          simp only [List.length_cons] at hlen
          omega
        have ihtail := ih (rest.dropWhile Spell.isLetterChar) hrest_fuel
          (i + (c :: rest.takeWhile Spell.isLetterChar).length) true
          hdrop_run (fun h0 => absurd h0 (by omega)) hinv1'
        have hbound : i = 0 ∨ ∃ c₀, t.get? (i - 1) = some c₀ ∧
            isW c₀ = false := by
          cases i with
          | zero => exact Or.inl rfl
          | succ j =>
            obtain ⟨c₀, hg, hpw⟩ := hinv1 j rfl
            right
            refine ⟨c₀, by simpa using hg, ?_⟩
            rw [← hpw, hprev]
        have hunfold : Spell.wordsAux isW prevW i (c :: rest) =
            (if (rest.dropWhile Spell.isLetterChar).head?.all
                (fun d => !isW d) = true then
              (i, i + (c :: rest.takeWhile Spell.isLetterChar).length,
                c :: rest.takeWhile Spell.isLetterChar) ::
                Spell.wordsAux isW true
                  (i + (c :: rest.takeWhile Spell.isLetterChar).length)
                  (rest.dropWhile Spell.isLetterChar)
            else
              Spell.wordsAux isW true
                (i + (c :: rest.takeWhile Spell.isLetterChar).length)
                (rest.dropWhile Spell.isLetterChar)) := by
          rw [Spell.wordsAux, if_pos hA]
        rw [hunfold]
        by_cases hro : (rest.dropWhile Spell.isLetterChar).head?.all
            (fun d => !isW d) = true
        · rw [if_pos hro]
          constructor
          · intro hm
            rcases List.mem_cons.1 hm with heq | htail
            · rw [Prod.mk.injEq, Prod.mk.injEq] at heq
              obtain ⟨hs, he', hw'⟩ := heq
              subst hs
              subst he'
              subst hw'
              exact ⟨run_is_match isW t s c rest hdrop hc hbound hro,
                le_refl s⟩
            · obtain ⟨hmatch, hge⟩ := (ihtail s e w).1 htail
              exact ⟨hmatch, by omega⟩
          · rintro ⟨hmatch, his⟩
            rcases eq_or_lt_of_le his with heq | hlt
            · subst heq
              obtain ⟨hw_eq, he_eq, _⟩ :=
                match_at_run_start isW hsub t i c rest hdrop i e w hmatch rfl
              subst hw_eq
              subst he_eq
              exact List.mem_cons_self _ _
            · rcases Nat.lt_or_ge s
                (i + (c :: rest.takeWhile Spell.isLetterChar).length)
                with hin | hout
              · exact (match_inside_run_impossible isW hsub t i c rest hdrop hc
                  s e w hmatch hlt hin).elim
              · exact List.mem_cons.2 (Or.inr ((ihtail s e w).2
                  ⟨hmatch, hout⟩))
        · rw [if_neg hro]
          constructor
          · intro hm
            obtain ⟨hmatch, hge⟩ := (ihtail s e w).1 hm
            exact ⟨hmatch, by omega⟩
          · rintro ⟨hmatch, his⟩
            rcases eq_or_lt_of_le his with heq | hlt
            · exfalso
              subst heq
              obtain ⟨_, _, hro'⟩ :=
                match_at_run_start isW hsub t i c rest hdrop i e w hmatch rfl
              exact hro hro'
            · rcases Nat.lt_or_ge s
                (i + (c :: rest.takeWhile Spell.isLetterChar).length)
                with hin | hout
              · exact (match_inside_run_impossible isW hsub t i c rest hdrop hc
                  s e w hmatch hlt hin).elim
              · exact (ihtail s e w).2 ⟨hmatch, hout⟩
      · -- no run starts here: step one character
        have hunfoldB : Spell.wordsAux isW prevW i (c :: rest) =
            Spell.wordsAux isW (isW c) (i + 1) rest := by
          rw [Spell.wordsAux, if_neg hA]
        have hdrop1 : t.drop (i + 1) = rest := by
          have h1 := (List.drop_drop 1 i t).symm
          rw [h1, hdrop]
          rfl
        have ihtail := ih rest
          (by simp only [List.length_cons] at hlen; omega)
          (i + 1) (isW c) hdrop1
          (fun h0 => absurd h0 (by omega))
          (fun j hj => ⟨c, by
            have h2 : j = i := by omega
            rw [h2]
            exact hti, rfl⟩)
        rw [hunfoldB]
        constructor
        · intro hm
          obtain ⟨hmatch, hge⟩ := (ihtail s e w).1 hm
          exact ⟨hmatch, by omega⟩
        · rintro ⟨hmatch, his⟩
          rcases eq_or_lt_of_le his with heq | hlt
          · exfalso
            obtain ⟨hw_ne, he, helen, hslice, hletters, hleft, hright⟩ :=
              hmatch
            have hw_pos : 0 < w.length := List.length_pos.2 hw_ne
            have hw0 : w.get? 0 = some c := by
              rw [hslice, List.get?_take hw_pos, ← heq, hdrop]
              rfl
            have hc_letter : Spell.isLetterChar c = true :=
              hletters c (List.get?_mem hw0)
            have hprev_true : prevW = true := by
              cases hp : prevW
              · exact absurd (by simp [hc_letter, hp]) hA
              · rfl
            cases i with
            | zero =>
              rw [hinv0 rfl] at hprev_true
              exact absurd hprev_true (by simp)
            | succ j =>
              obtain ⟨c₀', hg', hpw⟩ := hinv1 j rfl
              rcases hleft with h0 | ⟨c₀, hg, hnw⟩
              · omega
              · have h2 : s - 1 = j := by omega
                rw [h2, hg'] at hg
                simp only [Option.some.injEq] at hg
                rw [hpw, hg, hnw] at hprev_true
                exact absurd hprev_true (by simp)
          · exact (ihtail s e w).2 ⟨hmatch, hlt⟩

theorem findWords_iff (isW : Char → Bool)
    (hsub : ∀ c, Spell.isLetterChar c = true → isW c = true)
    (t : List Char) (s e : Nat) (w : List Char) :
    (s, e, w) ∈ Spell.findWords isW t ↔
      Spell.IsRegexMatch isW t s e w := by
  have h := wordsAux_mem_iff isW hsub t t.length t (le_refl _) 0 false
    (by simp)
    (fun _ => rfl) (fun j hj => absurd hj (by omega)) s e w
  rw [Spell.findWords, h]
  simp

theorem buildFold_entries (ignored : List (List Char)) :
    ∀ (ms : List (Nat × Nat × List Char)) (m : Spell.WordMap)
      (k : List Char),
      (ms.foldl (fun m occ =>
        let lower := Spell.strLower occ.2.2
        if lower ∈ ignored then m else m.add lower occ) m).entries k =
      m.entries k ++ ms.filter (fun occ =>
        decide (Spell.strLower occ.2.2 = k) &&
        !decide (Spell.strLower occ.2.2 ∈ ignored)) := by
  intro ms
  induction ms with
  | nil => intro m k; simp
  | cons occ ms' ih =>
    intro m k
    simp only [List.foldl_cons, List.filter_cons]
    by_cases hig : Spell.strLower occ.2.2 ∈ ignored
    · rw [if_pos hig]
      have hcond : (decide (Spell.strLower occ.2.2 = k) &&
          !decide (Spell.strLower occ.2.2 ∈ ignored)) = false := by
        simp [hig]
      rw [hcond]
      simp only [Bool.false_eq_true, if_false]
      exact ih m k
    · rw [if_neg hig]
      by_cases hk : Spell.strLower occ.2.2 = k
      · have hig' : k ∉ ignored := hk ▸ hig
        have hcond : (decide (Spell.strLower occ.2.2 = k) &&
            !decide (Spell.strLower occ.2.2 ∈ ignored)) = true := by
          simp [hig, hk, hig']
        rw [hcond]
        simp only [if_true]
        rw [ih]
        have hadd : (Spell.WordMap.add m (Spell.strLower occ.2.2)
            occ).entries k = m.entries k ++ [occ] := by
          simp only [Spell.WordMap.add]
          rw [if_pos hk.symm, hk]
        rw [hadd, List.append_assoc]
        rfl
      · have hcond : (decide (Spell.strLower occ.2.2 = k) &&
            !decide (Spell.strLower occ.2.2 ∈ ignored)) = false := by
          simp [hk]
        rw [hcond]
        simp only [Bool.false_eq_true, if_false]
        rw [ih]
        have hadd : (Spell.WordMap.add m (Spell.strLower occ.2.2)
            occ).entries k = m.entries k := by
          simp only [Spell.WordMap.add]
          rw [if_neg (fun h => hk h.symm)]
        rw [hadd]

theorem buildFold_keys (ignored : List (List Char)) :
    ∀ (ms : List (Nat × Nat × List Char)) (m : Spell.WordMap)
      (k : List Char),
      (k ∈ (ms.foldl (fun m occ =>
        let lower := Spell.strLower occ.2.2
        if lower ∈ ignored then m else m.add lower occ) m).keys ↔
      (k ∈ m.keys ∨ ∃ occ ∈ ms, Spell.strLower occ.2.2 = k ∧
        k ∉ ignored)) := by
  intro ms
  induction ms with
  | nil => intro m k; simp
  | cons occ ms' ih =>
    intro m k
    simp only [List.foldl_cons]
    by_cases hig : Spell.strLower occ.2.2 ∈ ignored
    · rw [if_pos hig, ih]
      constructor
      · rintro (h | h)
        · exact Or.inl h
        · exact Or.inr (by
            obtain ⟨o, ho, h1, h2⟩ := h
            exact ⟨o, List.mem_cons_of_mem _ ho, h1, h2⟩)
      · rintro (h | ⟨o, ho, h1, h2⟩)
        · exact Or.inl h
        · rcases List.mem_cons.1 ho with rfl | ho'
          · exact absurd (h1 ▸ hig) h2
          · exact Or.inr ⟨o, ho', h1, h2⟩
    · rw [if_neg hig, ih]
      have hkeys : k ∈ (Spell.WordMap.add m (Spell.strLower occ.2.2)
          occ).keys ↔ (k ∈ m.keys ∨ k = Spell.strLower occ.2.2) := by
        simp only [Spell.WordMap.add]
        by_cases hmem : Spell.strLower occ.2.2 ∈ m.keys
        · rw [if_pos hmem]
          constructor
          · exact Or.inl
          · rintro (h | rfl)
            · exact h
            · exact hmem
        · rw [if_neg hmem]
          simp [List.mem_append]
      rw [hkeys]
      constructor
      · rintro ((h | rfl) | ⟨o, ho, h1, h2⟩)
        · exact Or.inl h
        · exact Or.inr ⟨occ, List.mem_cons_self _ _, rfl, hig⟩
        · exact Or.inr ⟨o, List.mem_cons_of_mem _ ho, h1, h2⟩
      · rintro (h | ⟨o, ho, h1, h2⟩)
        · exact Or.inl (Or.inl h)
        · rcases List.mem_cons.1 ho with rfl | ho'
          · exact Or.inl (Or.inr h1.symm)
          · exact Or.inr ⟨o, ho', h1, h2⟩

/-- **C7.** For every input text, the background spellcheck worker
reports as misspelled exactly the occurrences (start offset, end offset,
original spelling) of maximal alphabetic words — the matches of
`\b[a-zA-Z]+\b`, characterized declaratively by `IsRegexMatch` — whose
lowercase form is not in the ignored-words set and is reported unknown by
the dictionary: every such occurrence is reported, and words containing
digits or other non-letters, ignored words and dictionary-known words are
never reported.  The regex engine's Unicode word-character class `\w`
(which defines `\b`) enters as the parameter `isW`, constrained only by
the fact the code relies on — ASCII letters are word characters — so the
equivalence holds for the engine's actual class on arbitrary (also
non-ASCII) text; `cafe_diacritic_not_matched` below exercises this on
`"café"`. -/
theorem spellcheck_reports_iff (ignored : List (List Char))
    (unknown : List Char → Bool) (isW : Char → Bool)
    (hsub : ∀ c, Spell.isLetterChar c = true → isW c = true)
    (t : List Char) (s e : Nat) (w : List Char) :
    (s, e, w) ∈ Spell.spellCheckRun ignored unknown isW t ↔
      (Spell.IsRegexMatch isW t s e w ∧ Spell.strLower w ∉ ignored ∧
        unknown (Spell.strLower w) = true) := by
  simp only [Spell.spellCheckRun, Spell.buildWordMap]
  rw [List.mem_flatMap]
  constructor
  · rintro ⟨k, hk_mem, hocc⟩
    obtain ⟨hk_keys, hk_unknown⟩ := List.mem_filter.1 hk_mem
    rw [buildFold_entries ignored (Spell.findWords isW t) Spell.emptyWordMap k]
      at hocc
    simp only [Spell.emptyWordMap, List.nil_append] at hocc
    obtain ⟨hmem, hcond⟩ := List.mem_filter.1 hocc
    simp only [Bool.and_eq_true, decide_eq_true_eq, Bool.not_eq_true',
      decide_eq_false_iff_not] at hcond
    obtain ⟨hkw, hnig⟩ := hcond
    refine ⟨(findWords_iff isW hsub t s e w).1 hmem, hnig, ?_⟩
    rw [hkw]
    exact hk_unknown
  · rintro ⟨hmatch, hnig, hunk⟩
    refine ⟨Spell.strLower w, ?_, ?_⟩
    · rw [List.mem_filter]
      refine ⟨?_, hunk⟩
      rw [buildFold_keys ignored (Spell.findWords isW t) Spell.emptyWordMap]
      right
      exact ⟨(s, e, w), (findWords_iff isW hsub t s e w).2 hmatch, rfl, hnig⟩
    · rw [buildFold_entries ignored (Spell.findWords isW t) Spell.emptyWordMap]
      simp only [Spell.emptyWordMap, List.nil_append]
      rw [List.mem_filter]
      refine ⟨(findWords_iff isW hsub t s e w).2 hmatch, ?_⟩
      simp [hnig]

theorem resize_clamps_min_and_keeps_position_witness :
    ((⟨5, 6, 100, 80, false⟩ : Drawing.ImageObject).resize 7 (-3)).width =
      max 20 7 ∧
    ((⟨5, 6, 100, 80, false⟩ : Drawing.ImageObject).resize 7 (-3)).x = 5 :=
  ⟨(resize_clamps_min_and_keeps_position ⟨5, 6, 100, 80, false⟩ 7 (-3)).1,
    (resize_clamps_min_and_keeps_position ⟨5, 6, 100, 80, false⟩ 7
      (-3)).2.2.2.2.1⟩

theorem voice_worker_lifecycle_witness :
    (Voice.voiceRun [Voice.VoiceEvent.toggle 600]).length ≤ 1 ∧
    Voice.toggle_voice (Voice.voiceRun [Voice.VoiceEvent.toggle 600]) 300 =
      (if Voice.is_voice_active (Voice.voiceRun [Voice.VoiceEvent.toggle 600])
       then (false, [])
       else (true, [Voice.VoiceWorker.fresh 300])) :=
  ⟨(voice_worker_lifecycle [Voice.VoiceEvent.toggle 600] 300).1,
    (voice_worker_lifecycle [Voice.VoiceEvent.toggle 600] 300).2.1⟩

theorem save_file_spec_witness :
    (FileOps.save_file "hi".toList "/home/u/notes.txt".toList true).png_path =
      some (FileOps.join (FileOps.dirname "/home/u/notes.txt".toList)
        (FileOps.drawingFileName "/home/u/notes.txt".toList)) :=
  (save_file_spec "hi".toList "/home/u/notes.txt".toList true).2.2.1

theorem spellcheck_reports_iff_witness :
    (∀ c, Spell.isLetterChar c = true → Spell.isLetterChar c = true) ∧
    (0, 2, "ab".toList) ∈
      Spell.spellCheckRun [] (fun _ => true) Spell.isLetterChar
        "ab".toList :=
  ⟨fun _ h => h,
    (spellcheck_reports_iff [] (fun _ => true) Spell.isLetterChar
      (fun _ h => h) "ab".toList 0 2 "ab".toList).2
      ⟨⟨by decide, by decide, by decide, by decide, by decide,
        Or.inl rfl, Or.inl (by decide)⟩, by simp, rfl⟩⟩

/-- On `"café"` the engine's `\b` fails after `f` because `é` is a
Unicode word character: with any word-character class that contains `é`
(as the engine's `\w` does), the model does not match `(0, 3, "caf")` —
in agreement with `re.finditer(r"\b[a-zA-Z]+\b", "café")`, which finds
no match. -/
theorem cafe_diacritic_not_matched :
    (0, 3, "caf".toList) ∉
      Spell.findWords (fun c => Spell.isLetterChar c || c = 'é')
        "café".toList := by
  intro hmem
  have hmatch := (findWords_iff (fun c => Spell.isLetterChar c || c = 'é')
    (fun c h => by simp [h]) "café".toList 0 3 "caf".toList).1 hmem
  obtain ⟨_, _, _, _, _, _, hright⟩ := hmatch
  rcases hright with h | ⟨c, hc, hw⟩
  · simp at h
  · rw [show ("café".toList.get? 3) = some 'é' from rfl] at hc
    simp only [Option.some.injEq] at hc
    subst hc
    simp at hw
